import Mathlib

/-!
Verification development for the Prune repository (a conservative
"deletion plan" tool): shallow embedding of `src/prune/analyzer.py`,
`src/prune/cli.py`, `src/prune/models.py` and
`src/prune/experimental/dead_code.py`, together with theorems settling the
frozen claims about the specification.

Modelling conventions:
* Confidence scores are exact decimal constants in the source
  (0.9, 0.75, 0.65, 0.6, 0.5, 0.45, 0.4, 0.7); they are modelled as
  natural numbers in hundredths (0.9 ↦ 90, 0.65 ↦ 65, …), which preserves
  all orderings and equalities the claims speak about.
* Byte content of a file is modelled as a `String`; `hashlib.sha256`
  hex digests are modelled by the content itself (sha256 is treated as
  injective, which is the standard collision-freeness assumption).
* Python `dict`s are modelled as association lists with insertion order
  and in-place overwrite (`dinsert`), matching CPython dict semantics.
* Python `set`s are modelled as lists used only through membership.
* `sorted`/`list.sort` (a stable sort) is modelled by
  `List.insertionSort`, which is stable for the same `≤` relation.
* Exceptions are modelled with `Except String`: a `try/except` in the
  source corresponds to a total function, an unguarded fallible
  operation propagates the error.
-/

/-! ## Character-level string helpers (structural, kernel-evaluable) -/

/-- Lexicographic strict order on char lists (Python string `<` compares
code points left to right). -/
def charsLt : List Char → List Char → Bool
  | [], [] => false
  | [], _ :: _ => true
  | _ :: _, [] => false
  | a :: as, b :: bs => if a < b then true else if b < a then false else charsLt as bs

/-- Non-strict lexicographic order on strings, via `charsLt`. -/
def strLeB (a b : String) : Bool := ! charsLt b.data a.data

/-- Strict lexicographic order on strings. -/
def strLtB (a b : String) : Bool := charsLt a.data b.data

/-- List prefix test (used to model `str.startswith` and friends). -/
def isPfx : List Char → List Char → Bool
  | [], _ => true
  | _ :: _, [] => false
  | a :: as, b :: bs => a = b && isPfx as bs

/-- List suffix test (models `str.endswith`). -/
def isSfx (a b : List Char) : Bool := isPfx a.reverse b.reverse

/-- Substring test: `a` occurs contiguously inside `b`
(models Python `a in b` on strings). -/
def isSub (a : List Char) : List Char → Bool
  | [] => a.isEmpty
  | c :: rest => isPfx a (c :: rest) || isSub a rest

/-- Split a char list at a separator (models splitting a posix path on `/`
or a file name on `.`); always returns a nonempty list of segments. -/
def splitSeg (sep : Char) : List Char → List (List Char)
  | [] => [[]]
  | c :: rest =>
    let r := splitSeg sep rest
    if c = sep then [] :: r
    else
      match r with
      | [] => [[c]]
      | h :: t => (c :: h) :: t

/-- Segments of a posix relative path (models `pathlib.Path(p).parts`). -/
def pathParts (p : String) : List String := (splitSeg '/' p.data).map List.asString

/-- Final path component (models `pathlib.Path(p).name`). -/
def fileName (p : String) : String := (pathParts p).getLastD ""

/-- Index of the last occurrence of a char in a list, if any. -/
def lastIdxOf (c : Char) : List Char → Option Nat
  | [] => none
  | a :: rest =>
    match lastIdxOf c rest with
    | some i => some (i + 1)
    | none => if a = c then some 0 else none

/-- Strip the extension from a file-name component
(models `pathlib.PurePath.with_suffix("")` applied to the final
component: the suffix starts at the last dot, provided that dot is
neither the first nor the last character). -/
def stripSuffix (name : String) : String :=
  let cs := name.data
  match lastIdxOf '.' cs with
  | some i => if 0 < i ∧ i + 1 < cs.length then List.asString (cs.take i) else name
  | none => name

/-- Join strings with a separator (models `str.join`). -/
def joinSep (sep : String) : List String → String
  | [] => ""
  | h :: t => t.foldl (fun acc s => acc ++ sep ++ s) h

/-! ## Data model (from `src/prune/models.py`) -/

/-- A supplementary-detail value (`details: dict[str, Any]` holds strings,
ints and bools in the source). -/
inductive DVal where
  | s (v : String)
  | n (v : Nat)
  | b (v : Bool)
deriving DecidableEq

/-- `Candidate` from `models.py`: one proposed action. Confidence in
hundredths. -/
structure Candidate where
  kind : String
  action : String
  path : String
  reason : String
  confidence : Nat
  details : List (String × DVal)
deriving DecidableEq

/-- Static facts extracted from one parsed structured-source file by
`_ImportCollector` (`visit_Import`/`visit_ImportFrom`/`visit_If`/
`visit_Assign`/`visit_FunctionDef`/`visit_ClassDef`/`visit_Name`): the
collector output is the interface the analyzer consumes, so it is the
granularity of the embedding. -/
structure PyFacts where
  is_script : Bool
  exports : List String
  defs : List (String × Nat)
  used : List String
  imports : List String
deriving DecidableEq

/-- One filesystem entry as the collector sees it: relative posix path,
whether `stat` succeeds, the stat size, the lowercased extension, the
byte content (`none` models a file whose `open`/`read` raises `OSError`),
the parse outcome for structured-source files (`none` models
`SyntaxError`/`UnicodeDecodeError`/`OSError` in `ast.parse`), and the
execute bit (`os.access(path, os.X_OK)`). -/
structure RawFile where
  rel_path : String
  statOk : Bool
  size : Nat
  extension : String
  content : Option String
  pyFacts : Option PyFacts
  executable : Bool
deriving DecidableEq

/-- Per-module metadata stored by `_build_python_index`. -/
structure PyMeta where
  rel_path : String
  is_script : Bool
  exports : List String
  defs : List (String × Nat)
  used : List String
deriving DecidableEq

/-- The value returned by `_build_python_index`. -/
structure PyIndex where
  modules : List (String × RawFile)
  referenced : List String
  metadata : List (String × PyMeta)
deriving DecidableEq

/-- `Plan` from `models.py` plus the summary fields `analyze` fills in
(`generated_at` and `root` are environment-supplied strings with no
logical content and are omitted). -/
structure Plan where
  total_files : Nat
  candidates : List Candidate
  by_reason : List (String × Nat)
  threshold : Nat
deriving DecidableEq

/-! ## Python dict/list helpers -/

/-- Association-list lookup, first match (Python `d.get(k)` /
`d[k]` on a dict whose keys are unique by construction). -/
def dget : List (String × α) → String → Option α
  | [], _ => none
  | (k, v) :: rest, q => if q = k then some v else dget rest q

/-- Dict insertion with CPython semantics: overwrite in place if the key
exists, else append at the end. -/
def dinsert : List (String × α) → String → α → List (String × α)
  | [], k, v => [(k, v)]
  | (k', v') :: rest, k, v =>
    if k = k' then (k, v) :: rest else (k', v') :: dinsert rest k v

/-- `hashes.setdefault(digest, []).append(info)`: append to the existing
group, else add a new singleton group at the end. -/
def dappend : List (String × List RawFile) → String → RawFile → List (String × List RawFile)
  | [], k, f => [(k, [f])]
  | (k', g) :: rest, k, f =>
    if k = k' then (k', g ++ [f]) :: rest else (k', g) :: dappend rest k f

/-! ## Constants from `analyzer.py` -/

def TEXT_EXTENSIONS : List String :=
  [".py", ".md", ".toml", ".yaml", ".yml", ".json", ".ini", ".cfg", ".txt", ".rst", ".sh"]

def CONFIG_EXTENSIONS : List String := [".toml", ".yaml", ".yml", ".json", ".ini", ".cfg"]

def SCRIPT_EXTENSIONS : List String := [".sh", ".bash", ".zsh"]

def EXPERIMENT_DIRS : List String := ["experiments", "scratch", "tmp", "old", "archive", "backup"]

def MAX_TEXT_BYTES : Nat := 1000000

/-- `any(part in EXPERIMENT_DIRS for part in Path(rel_path).parts)`. -/
def hasExpSegment (p : String) : Bool := (pathParts p).any (fun s => EXPERIMENT_DIRS.contains s)

/-! ## `_module_name` -/

/-- `_module_name` from `analyzer.py`: strip the suffix of the final
component, drop a trailing `__init__` segment, join with dots. -/
def module_name (rel_path : String) : String :=
  let parts := pathParts rel_path
  let parts := parts.dropLast ++ [stripSuffix (parts.getLastD "")]
  let parts := if parts.getLastD "" = "__init__" then parts.dropLast else parts
  joinSep "." parts

/-! ## `_build_text_reference_index` -/

/-- The reference terms: every file's relative path and bare name. -/
def refTerms : List RawFile → List String
  | [] => []
  | f :: rest => f.rel_path :: fileName f.rel_path :: refTerms rest

/-- One text file's contribution to the reference set: the terms that
occur as substrings of its content. An unreadable file (`OSError` caught
in the source) or an oversized file contributes nothing. -/
def fileRefs (terms : List String) (f : RawFile) : List String :=
  if TEXT_EXTENSIONS.contains f.extension then
    if f.size > MAX_TEXT_BYTES then []
    else
      match f.content with
      | none => []
      | some c => terms.filter (fun t => isSub t.data c.data)
  else []

/-- `_build_text_reference_index`: the set of path/name terms mentioned
in at least one scanned text file (a Python `set`, used only through
membership). -/
def build_text_reference_index (infos : List RawFile) : List String :=
  let terms := refTerms infos
  go terms infos
where
  go (terms : List String) : List RawFile → List String
    | [] => []
    | f :: rest => fileRefs terms f ++ go terms rest

/-! ## `_build_python_index` -/

/-- The `modules` dict: module name ↦ file, built over `.py` files in
collection order with dict-overwrite semantics. -/
def buildModules : List RawFile → List (String × RawFile) → List (String × RawFile)
  | [], m => m
  | f :: rest, m =>
    buildModules rest (if f.extension = ".py" then dinsert m (module_name f.rel_path) f else m)

/-- The second loop of `_build_python_index`: per-module `imports` and
`metadata` dicts; a file whose parse fails (`pyFacts = none`) is skipped
entirely. -/
def buildMeta :
    List (String × RawFile) → List (String × List String) → List (String × PyMeta) →
    List (String × List String) × List (String × PyMeta)
  | [], imps, meta => (imps, meta)
  | (m, f) :: rest, imps, meta =>
    match f.pyFacts with
    | none => buildMeta rest imps meta
    | some fc =>
      buildMeta rest (dinsert imps m fc.imports)
        (dinsert meta m ⟨f.rel_path, fc.is_script, fc.exports, fc.defs, fc.used⟩)

/-- `referenced_modules`: every imported name that is a known module. -/
def buildReferenced (modules : List (String × RawFile)) :
    List (String × List String) → List String
  | [] => []
  | (_, imported) :: rest =>
    imported.filter (fun n => (dget modules n).isSome) ++ buildReferenced modules rest

/-- `_build_python_index` from `analyzer.py`. -/
def build_python_index (infos : List RawFile) : PyIndex :=
  let modules := buildModules infos []
  let bm := buildMeta modules [] []
  ⟨modules, buildReferenced modules bm.1, bm.2⟩

/-! ## `_find_duplicate_files` -/

/-- `_hash_file`: reading the file fails with `OSError` if the content is
unavailable (the source has no `try` around `_hash_file`); the digest is
modelled by the content itself. -/
def hash_file (f : RawFile) : Except String String :=
  match f.content with
  | none => .error "OSError"
  | some c => .ok c

/-- The hash-grouping loop of `_find_duplicate_files`: empty files are
skipped; every other file is hashed (read errors propagate). -/
def buildHashes : List RawFile → List (String × List RawFile) →
    Except String (List (String × List RawFile))
  | [], h => .ok h
  | f :: rest, h =>
    if f.size = 0 then buildHashes rest h
    else
      match hash_file f with
      | .error e => .error e
      | .ok digest => buildHashes rest (dappend h digest f)

/-- The sort key of `_find_duplicate_files`:
`(len(i.rel_path), i.rel_path)`. -/
def fiR (a b : RawFile) : Prop :=
  a.rel_path.length < b.rel_path.length ∨
    (a.rel_path.length = b.rel_path.length ∧ strLeB a.rel_path b.rel_path = true)

instance : DecidableRel fiR := fun _ _ => by unfold fiR; infer_instance

/-- The duplicate candidate for `info`, duplicating `keep`. -/
def dupCand (rel keepRel digest : String) : Candidate :=
  ⟨"file", "delete", rel, "duplicate_file", 90,
    [("duplicate_of", .s keepRel), ("hash", .s digest)]⟩

/-- Candidate emission per hash group: groups of fewer than two files are
skipped; otherwise the group is stably sorted by
`(len(rel_path), rel_path)`, the first file is kept and each of the rest
is flagged. -/
def emitDups : List (String × List RawFile) → List Candidate
  | [] => []
  | (digest, g) :: rest =>
    (if g.length < 2 then []
     else
       match List.insertionSort fiR g with
       | [] => []
       | keep :: others => others.map (fun f => dupCand f.rel_path keep.rel_path digest))
    ++ emitDups rest

/-- `_find_duplicate_files` from `analyzer.py`. -/
def find_duplicate_files (infos : List RawFile) : Except String (List Candidate) := do
  let hashes ← buildHashes infos []
  pure (emitDups hashes)

/-! ## `_find_unreferenced_files` -/

/-- Confidence of an `unreferenced_python` candidate: 0.65, raised to
0.75 under an experiment/scratch directory segment. -/
def pyConf (p : String) : Nat := if hasExpSegment p then 75 else 65

/-- Confidence of an `unreferenced_file` candidate: 0.45, raised to 0.6
under an experiment/scratch directory segment. -/
def fileConf (p : String) : Nat := if hasExpSegment p then 60 else 45

def pyCand (p m : String) : Candidate :=
  ⟨"file", "delete", p, "unreferenced_python", pyConf p, [("module", .s m)]⟩

def fileCand (p ext : String) : Candidate :=
  ⟨"file", "delete", p, "unreferenced_file", fileConf p, [("extension", .s ext)]⟩

/-- Does the relative path end with `__init__.py`? -/
def isInitFile (p : String) : Bool := isSfx "__init__.py".data p.data

/-- The `is_script` flag the generator reads for a module:
`metadata.get(module, {}).get("is_script")`, defaulting to `False`. -/
def metaIsScript (idx : PyIndex) (m : String) : Bool :=
  ((dget idx.metadata m).map (fun meta => meta.is_script)).getD false

/-- `_find_unreferenced_files` from `analyzer.py`: for each `.py` file,
flag unless its module is referenced, or its metadata carries an
entry-point guard, or it is an `__init__.py`; for every other file, flag
unless its path or bare name is in the text-reference set. -/
def find_unreferenced_files (textRefs : List String) (idx : PyIndex) :
    List RawFile → List Candidate
  | [] => []
  | f :: rest =>
    (if f.extension = ".py" then
      let m := module_name f.rel_path
      if ¬ idx.referenced.contains m ∧ ¬ metaIsScript idx m ∧ ¬ isInitFile f.rel_path then
        [pyCand f.rel_path m]
      else []
    else
      if ¬ textRefs.contains f.rel_path ∧ ¬ textRefs.contains (fileName f.rel_path) then
        [fileCand f.rel_path f.extension]
      else [])
    ++ find_unreferenced_files textRefs idx rest

/-! ## Remaining generators -/

/-- `_find_orphan_configs` from `analyzer.py`. -/
def find_orphan_configs (textRefs : List String) : List RawFile → List Candidate
  | [] => []
  | f :: rest =>
    (if CONFIG_EXTENSIONS.contains f.extension then
      if textRefs.contains f.rel_path || textRefs.contains (fileName f.rel_path) then []
      else [⟨"file", "delete", f.rel_path, "orphan_config", 60, []⟩]
    else [])
    ++ find_orphan_configs textRefs rest

/-- `_find_unused_scripts` from `analyzer.py`: confidence 0.5 without the
execute bit, 0.4 with it. -/
def find_unused_scripts (textRefs : List String) : List RawFile → List Candidate
  | [] => []
  | f :: rest =>
    (if SCRIPT_EXTENSIONS.contains f.extension then
      if textRefs.contains f.rel_path || textRefs.contains (fileName f.rel_path) then []
      else
        [⟨"file", "delete", f.rel_path, "unused_script",
          if ¬ f.executable then 50 else 40, [("executable", .b f.executable)]⟩]
    else [])
    ++ find_unused_scripts textRefs rest

/-- `_find_experiment_artifacts` from `analyzer.py`. -/
def find_experiment_artifacts : List RawFile → List Candidate
  | [] => []
  | f :: rest =>
    (if hasExpSegment f.rel_path then
      [⟨"file", "delete", f.rel_path, "experiment_artifact", 70, []⟩]
    else [])
    ++ find_experiment_artifacts rest

/-! ## Dead-code generators -/

/-- The inner loop shared in shape by both dead-code implementations:
flag every definition of a module that is neither read as an identifier
in its own file nor publicly exported; 0.5, lowered to 0.4 for
underscore-private names. -/
def deadDefs (modName relPath : String) (used exports : List String) :
    List (String × Nat) → List Candidate
  | [] => []
  | (name, lineno) :: rest =>
    (if used.contains name || exports.contains name then []
     else
       [⟨"code", "manual_review", relPath, "dead_code",
         if isPfx "_".data name.data then 40 else 50,
         [("symbol", .s name), ("line", .n lineno), ("module", .s modName)]⟩])
    ++ deadDefs modName relPath used exports rest

/-- `_find_dead_code` from `analyzer.py` (the `isinstance(rel_path, str)`
guard is vacuous in the typed model: `rel_path` is always a string). -/
def find_dead_code (idx : PyIndex) : List Candidate :=
  go idx.metadata
where
  go : List (String × PyMeta) → List Candidate
    | [] => []
    | (m, meta) :: rest =>
      deadDefs m meta.rel_path meta.used meta.exports meta.defs ++ go rest

/-- `_find_dead_code` from `experimental/dead_code.py` (byte-identical to
the analyzer's copy in the source). -/
def exp_find_dead_code (idx : PyIndex) : List Candidate :=
  go idx.metadata
where
  go : List (String × PyMeta) → List Candidate
    | [] => []
    | (m, meta) :: rest =>
      deadDefs m meta.rel_path meta.used meta.exports meta.defs ++ go rest

/-! ## Plan assembly (`analyze`) -/

/-- The sort key of `analyze`: `(c.kind, c.path, c.reason)`,
lexicographically. -/
def candR (a b : Candidate) : Prop :=
  strLtB a.kind b.kind = true ∨
    (a.kind = b.kind ∧
      (strLtB a.path b.path = true ∨
        (a.path = b.path ∧ strLeB a.reason b.reason = true)))

instance : DecidableRel candR := fun _ _ => by unfold candR; infer_instance

/-- Tuple order on `(reason, count)` pairs for `dict(sorted(...))`. -/
def pairR (a b : String × Nat) : Prop :=
  strLtB a.1 b.1 = true ∨ (a.1 = b.1 ∧ a.2 ≤ b.2)

instance : DecidableRel pairR := fun _ _ => by unfold pairR; infer_instance

/-- Count-by-reason accumulation (`summary.get(reason, 0) + 1`). -/
def countReasons : List Candidate → List (String × Nat) → List (String × Nat)
  | [], acc => acc
  | c :: rest, acc =>
    countReasons rest (dinsert acc c.reason (((dget acc c.reason).getD 0) + 1))

/-- `_summarize_by_reason` from `analyzer.py`: counts grouped by reason,
sorted by key. -/
def summarize_by_reason (cands : List Candidate) : List (String × Nat) :=
  List.insertionSort pairR (countReasons cands [])

/-- `_file_info` from `analyzer.py`: a failing `stat` call is unguarded
and propagates. -/
def file_info (f : RawFile) : Except String RawFile :=
  if f.statOk then .ok f else .error "OSError"

/-- The `[_file_info(root, path) for path in files]` comprehension. -/
def collectInfos (files : List RawFile) : Except String (List RawFile) :=
  files.mapM file_info

/-- The concatenation of all generator outputs, in source order.  The
dead-code generator is called unconditionally: the `analyze` in
`analyzer.py` has no `dead_code` parameter. -/
def rawCandidates (infos : List RawFile) : Except String (List Candidate) := do
  let dups ← find_duplicate_files infos
  let textRefs := build_text_reference_index infos
  let idx := build_python_index infos
  pure (dups ++ find_unreferenced_files textRefs idx infos ++
    find_orphan_configs textRefs infos ++ find_unused_scripts textRefs infos ++
    find_experiment_artifacts infos ++ find_dead_code idx)

/-- `analyze` from `analyzer.py` (from the `file_infos` comprehension on;
collection is modelled by the input list, orderd as `_collect_files`
returns it).  Keeps candidates with confidence `≥ threshold`, sorts by
`(kind, path, reason)`, and assembles the summary. -/
def analyze (files : List RawFile) (threshold : Nat) : Except String Plan := do
  let infos ← collectInfos files
  let all ← rawCandidates infos
  let filtered := all.filter (fun c => threshold ≤ c.confidence)
  let sorted := List.insertionSort candR filtered
  pure ⟨infos.length, sorted, summarize_by_reason sorted, threshold⟩

/-! Quick evaluation sanity checks (concrete, kernel-decidable). -/

example : module_name "src/prune/analyzer.py" = "src.prune.analyzer" := by decide

example : module_name "a/__init__.py" = "a" := by decide

example : hasExpSegment "experiments/scratch.py" = true := by decide

example : isInitFile "pkg/__init__.py" = true := by decide

example : fileName "a/b/c.txt" = "c.txt" := by decide

example : isSub "util".data "import util".data = true := by decide

/-! ## Filesystem state and the apply/undo transaction (`cli.py`) -/

/-- Filesystem state under the project root: a map from posix relative
path to byte content, as an association list with unique keys.
Directories are implicit (`mkdir -p` is a no-op in this model). -/
abbrev FS := List (String × String)

/-- Lookup a path's content. -/
def fsGet : FS → String → Option String
  | [], _ => none
  | (k, v) :: rest, q => if q = k then some v else fsGet rest q

/-- Remove a path. -/
def fsErase (fs : FS) (k : String) : FS := List.filter (fun e => e.1 ≠ k) fs

/-- Create or overwrite a path (`write_text`, or the destination side of
`os.replace`). -/
def fsWrite (fs : FS) (k v : String) : FS := (k, v) :: fsErase fs k

/-- The trash directory name: `f"._trash_{timestamp}"`. -/
def trashName (ts : String) : String := "._trash_" ++ ts

/-- Path of a moved file inside the trash tree. -/
def tkey (ts rel : String) : String := trashName ts ++ "/" ++ rel

/-- Model of `shlex.quote`: safe strings pass through, everything else is
wrapped in single quotes with embedded quotes escaped. -/
def shQuote (s : String) : String :=
  if s = "" then "''"
  else if s.data.all (fun c =>
      c.isAlphanum || c = '_' || c = '@' || c = '%' || c = '+' || c = '=' ||
      c = ':' || c = ',' || c = '.' || c = '/' || c = '-') then s
  else "'" ++ joinSep "'\"'\"'" ((splitSeg '\'' s.data).map List.asString) ++ "'"

/-- Directory part of a relative path (`Path(rel_path).parent`), or `"."`
when there is none. -/
def parentDir (rel : String) : String :=
  let parts := pathParts rel
  if parts.length ≤ 1 then "." else joinSep "/" parts.dropLast

/-- The fixed header of the generated undo script. -/
def undoHeader (ts : String) : List String :=
  ["#!/bin/sh",
   "set -eu",
   "ROOT=\"$(cd \"$(dirname \"$0\")\" && pwd)\"",
   "TRASH_DIR=\"$ROOT/" ++ trashName ts ++ "\"",
   "if [ ! -d \"$TRASH_DIR\" ]; then",
   "  echo \"Trash directory missing: $TRASH_DIR\" >&2",
   "  exit 1",
   "fi"]

/-- The undo lines appended for one moved file: an optional `mkdir -p`
for its parent directory, then the reversing `mv`. -/
def undoLinesFor (rel : String) : List String :=
  (if parentDir rel ≠ "." then ["mkdir -p \"$ROOT\"/" ++ shQuote (parentDir rel)] else []) ++
  ["mv \"$TRASH_DIR\"/" ++ shQuote rel ++ " \"$ROOT\"/" ++ shQuote rel]

/-- The full undo-script text for the listed moved files. -/
def renderUndo (ts : String) (rels : List String) : String :=
  joinSep "\n" (undoHeader ts ++ rels.flatMap undoLinesFor) ++ "\n"

/-- One row of the closure record (original path, trashed path, reason,
confidence in hundredths). -/
structure MovedRow where
  old : String
  new : String
  reason : String
  confidence : Nat
deriving DecidableEq

/-- The closure report (`_render_closure`), reduced to its structured
content: the run parameters and the moved rows. -/
structure Closure where
  timestamp : String
  threshold : Nat
  trash : String
  rows : List MovedRow
deriving DecidableEq

/-- The loop state of `apply_plan`: the evolving filesystem, the set of
already-moved paths (`moved`), the undo entries in order, and the closure
rows. -/
structure ApplySt where
  fs : FS
  undoRels : List String
  rows : List MovedRow

/-- One iteration of the `apply_plan` loop: skip candidates that are not
file deletions, paths already moved, and sources that no longer exist;
otherwise move the file into the trash tree and append its undo entry and
closure row. -/
def applyStep (ts : String) (st : ApplySt) (c : Candidate) : ApplySt :=
  if c.kind = "file" ∧ c.action = "delete" then
    if st.undoRels.contains c.path then st
    else
      match fsGet st.fs c.path with
      | none => st
      | some v =>
        { fs := fsWrite (fsErase st.fs c.path) (tkey ts c.path) v
          undoRels := st.undoRels ++ [c.path]
          rows := st.rows ++ [⟨c.path, tkey ts c.path, c.reason, c.confidence⟩] }
  else st

/-- The full candidate loop of `apply_plan`. -/
def applyLoop (ts : String) (st : ApplySt) (cands : List Candidate) : ApplySt :=
  cands.foldl (applyStep ts) st

/-- `apply_plan` from `cli.py`: run the move loop, then write the undo
script at the root and inside the trash directory, then write the closure
report.  Returns the final filesystem, the moved relative paths in order,
and the closure record. -/
def apply_plan (ts : String) (plan : Plan) (fs : FS) (threshold : Nat) :
    FS × List String × Closure :=
  let st := applyLoop ts ⟨fs, [], []⟩ plan.candidates
  let script := renderUndo ts st.undoRels
  let fs := fsWrite st.fs "undo.sh" script
  let fs := fsWrite fs (tkey ts "undo.sh") script
  let closure : Closure := ⟨ts, threshold, trashName ts, st.rows⟩
  let fs := fsWrite fs "CLOSURE.md" "closure report"
  (fs, st.undoRels, closure)

/-- Executing one `mv "$TRASH_DIR"/rel "$ROOT"/rel` line of the undo
script under `set -eu`: a missing source aborts the script. -/
def undoStep (ts : String) (acc : Option FS) (rel : String) : Option FS :=
  acc.bind (fun fs =>
    match fsGet fs (tkey ts rel) with
    | none => none
    | some v => some (fsWrite (fsErase fs (tkey ts rel)) rel v))

/-- Executing the generated undo script: the reversing moves in emission
order (the `mkdir -p` lines are no-ops in this model). -/
def runUndo (ts : String) (rels : List String) (fs : FS) : Option FS :=
  rels.foldl (undoStep ts) (some fs)

/-! ## The command surface (`main` from `cli.py`) -/

/-- The parsed arguments `main` consumes (argument parsing itself is
external).  `pathOk` models `root.exists() and root.is_dir()`. -/
structure Args where
  pathOk : Bool
  apply : Bool
  yes : Bool
  one_run : Bool
  threshold : Option Nat
  dead_code : Bool
deriving DecidableEq

/-- The observable outcome of one `main` invocation: aborted on a bad
root, refused for lack of `--yes`, aborted by a propagating analysis
exception, completed a dry run, or applied the plan. -/
inductive MainOutcome where
  | badPath
  | refusedNoYes
  | analyzeError (e : String)
  | dryRun (plan : Plan)
  | applied (plan : Plan) (fs : FS) (rels : List String) (closure : Closure)
deriving DecidableEq

/-- `main` from `cli.py`, at the granularity of its control flow: check
the root, refuse `--apply` without `--yes` before anything else, default
the threshold (0.65 in one-run mode, else 0.4), analyze, and either stop
after writing the plan (dry run) or run `apply_plan`.  The `--one-run`
extra excludes and the plan files written by `write_plan` are not part of
any claim and are omitted; collection input is the `files` argument. -/
def main_run (args : Args) (files : List RawFile) (ts : String) (fs : FS) : MainOutcome :=
  if ¬ args.pathOk then .badPath
  else if args.apply ∧ ¬ args.yes then .refusedNoYes
  else
    let threshold := args.threshold.getD (if args.one_run then 65 else 40)
    match analyze files threshold with
    | .error e => .analyzeError e
    | .ok plan =>
      if args.apply then
        let (fs', rels, closure) := apply_plan ts plan fs threshold
        .applied plan fs' rels closure
      else .dryRun plan

/-- Process exit status of an outcome (`SystemExit` with a message and a
propagating exception both exit nonzero; normal completion returns 0). -/
def exitCodeOf : MainOutcome → Nat
  | .badPath => 1
  | .refusedNoYes => 1
  | .analyzeError _ => 1
  | .dryRun _ => 0
  | .applied _ _ _ _ => 0

/-- The filesystem moves an outcome performed. -/
def movesOf : MainOutcome → List String
  | .applied _ _ rels _ => rels
  | _ => []

/-- Whether the outcome created a trash directory (only `apply_plan`
does). -/
def trashCreatedOf : MainOutcome → Bool
  | .applied _ _ _ _ => true
  | _ => false

/-! ## Helper definitions for claim statements and concrete inputs -/

/-- Does a (possibly failed) analysis contain a candidate with the given
reason? -/
def hasReason (e : Except String Plan) (r : String) : Bool :=
  match e with
  | .ok p => p.candidates.any (fun c => c.reason == r)
  | .error _ => false

/-- Did the analysis complete? -/
def isOkB : Except String Plan → Bool
  | .ok _ => true
  | .error _ => false

/-- The `(reason, path)` pairs of a completed analysis, in plan order. -/
def planReasonPaths : Except String Plan → List (String × String)
  | .ok p => p.candidates.map (fun c => (c.reason, c.path))
  | .error _ => []

/-- Boolean sortedness of a candidate list under a given order. -/
def isSortedByB (le : Candidate → Candidate → Bool) : List Candidate → Bool
  | [] => true
  | [_] => true
  | a :: b :: t => le a b && isSortedByB le (b :: t)

/-- The ordering claim C6 asserts: reason as primary key, path as
secondary key. -/
def reasonPathLeB (a b : Candidate) : Bool :=
  strLtB a.reason b.reason || (a.reason == b.reason && strLeB a.path b.path)

/-- Is a completed analysis sorted with reason primary and path
secondary?  (Vacuously true on a failed analysis.) -/
def okSortedByReasonPath (e : Except String Plan) : Bool :=
  match e with
  | .ok p => isSortedByB reasonPathLeB p.candidates
  | .error _ => true

/-- The entry-point-guard flag of a file itself (its parsed
`is_script`). -/
def fileIsScript (f : RawFile) : Bool := ((f.pyFacts).map (fun fc => fc.is_script)).getD false

/-- A path is outside the special names the apply transaction itself
writes: not the undo script at the root, not the trash directory, not
under the trash directory. -/
def offTrash (ts p : String) : Prop :=
  p ≠ "undo.sh" ∧ p ≠ trashName ts ∧ ∀ s, p ≠ tkey ts s

/-- A plain text file with the given path and content. -/
def txtFile (rel content : String) : RawFile :=
  ⟨rel, true, content.length, ".txt", some content, none, false⟩

/-- Concrete input for C2: one structured-source file `module.py` with a
definition `used` that is read and a definition `unused` that is not. -/
def c2World : List RawFile :=
  [⟨"module.py", true, 60, ".py",
    some "def used():\n    return 1\n\ndef unused():\n    return 2\n\nused()\n",
    some ⟨false, [], [("used", 1), ("unused", 4)], ["used"], []⟩, false⟩]

/-- Concrete input for C6: two identical text files, producing one
`duplicate_file` candidate for `b.txt` and `unreferenced_file` candidates
for both. -/
def c6World : List RawFile := [txtFile "a.txt" "x", txtFile "b.txt" "x"]

/-- Concrete input for C7: a non-empty file whose content cannot be read
(`open` raises `OSError`), with a healthy companion file. -/
def c7World : List RawFile :=
  [⟨"a.txt", true, 1, ".txt", none, none, false⟩, txtFile "b.txt" "y"]

/-- Concrete input for C4: two empty files with identical (empty) byte
content. -/
def c4World : List RawFile := [txtFile "e1.txt" "", txtFile "e2.txt" ""]

/-- The scan invariant that a readable file's stat size is its content
length (unreadable files are unconstrained). -/
def sizeMatches (f : RawFile) : Prop :=
  match f.content with
  | some cf => f.size = cf.length
  | none => True

instance : DecidablePred sizeMatches := fun f => by
  unfold sizeMatches
  cases f.content
  · exact inferInstance
  · exact inferInstance

/-- The files `_find_duplicate_files` actually groups under a digest:
non-empty and with the given content. -/
def hashGroup (files : List RawFile) (c : String) : List RawFile :=
  files.filter (fun f => decide (f.size ≠ 0) && f.content == some c)

/-- Concrete input for the amended C4 witness: two non-empty duplicates
(`aa.txt`, `b.txt`) and an unrelated file. -/
def c4GoodWorld : List RawFile :=
  [txtFile "aa.txt" "dup", txtFile "b.txt" "dup", txtFile "c.txt" "zz"]

/-- Concrete file for the C5 counterexample: `a.py` carries an
entry-point guard and resolves to module `a`. -/
def c5CexPy : RawFile :=
  ⟨"a.py", true, 40, ".py", some "if __name__ == \"__main__\":\n    run()\n",
    some ⟨true, [], [], ["run"], []⟩, false⟩

/-- Concrete file for the C5 counterexample: `a/__init__.py` also
resolves to module `a` and, collected after `a.py`, overwrites its
dict entry, so only `__init__` is parsed. -/
def c5CexInit : RawFile :=
  ⟨"a/__init__.py", true, 1, ".py", some "\n", some ⟨false, [], [], [], []⟩, false⟩

/-- Concrete structured-source file importing `util` (for the C5
witness). -/
def mainPy : RawFile :=
  ⟨"main.py", true, 12, ".py", some "import util\n",
    some ⟨false, [], [], [], ["util"]⟩, false⟩

/-- Concrete structured-source file defining `helper`, imported by
`mainPy` (for the C5 witness). -/
def utilPy : RawFile :=
  ⟨"util.py", true, 27, ".py", some "def helper():\n    return 1\n",
    some ⟨false, [], [("helper", 1)], [], []⟩, false⟩

/-- Concrete plan for the C1 counterexample: one file candidate whose
path is the undo script's own name. -/
def c1CexPlan : Plan :=
  ⟨1, [⟨"file", "delete", "undo.sh", "unused_script", 50, []⟩], [("unused_script", 1)], 40⟩

/-- Concrete root filesystem for the C1 counterexample. -/
def c1CexFs : FS := [("undo.sh", "original payload")]

/-- Concrete plan for the amended-C1 witness. -/
def c1GoodPlan : Plan :=
  ⟨1, [⟨"file", "delete", "a.txt", "unreferenced_file", 45, []⟩], [("unreferenced_file", 1)], 40⟩

/-- Concrete root filesystem for the amended-C1 witness. -/
def c1GoodFs : FS := [("a.txt", "hello")]

/-- The invariant the apply loop maintains over the original filesystem
`fs0`: moved paths are distinct and clear of the transaction's own
artifacts, each moved file sits in the trash tree with its original
content, and every untouched benign path still has its original
content. -/
def ApplyInv (ts : String) (fs0 : FS) (st : ApplySt) : Prop :=
  st.undoRels.Nodup ∧
  (∀ rel ∈ st.undoRels, offTrash ts rel) ∧
  (∀ rel ∈ st.undoRels, fsGet st.fs (tkey ts rel) = fsGet fs0 rel ∧ (fsGet fs0 rel).isSome) ∧
  (∀ p, offTrash ts p → p ∉ st.undoRels → fsGet st.fs p = fsGet fs0 p)

/-- Decidable equality of `Except` results (kernel-reducible, for
evaluating the pipeline on concrete inputs). -/
instance {ε α : Type} [DecidableEq ε] [DecidableEq α] : DecidableEq (Except ε α) := fun a b =>
  match a, b with
  | .ok x, .ok y =>
    match decEq x y with
    | isTrue h => isTrue (h ▸ rfl)
    | isFalse h => isFalse (fun he => h (Except.ok.inj he))
  | .error x, .error y =>
    match decEq x y with
    | isTrue h => isTrue (h ▸ rfl)
    | isFalse h => isFalse (fun he => h (Except.error.inj he))
  | .ok _, .error _ => isFalse (fun he => Except.noConfusion he)
  | .error _, .ok _ => isFalse (fun he => Except.noConfusion he)

/-- The plan `analyze` produces on `c6World` at threshold 0 (checked by
kernel evaluation below): ordered by `(kind, path, reason)`, with the
`duplicate_file` entry for `b.txt` *after* the `unreferenced_file` entry
for `a.txt`. -/
def c6Plan : Plan :=
  ⟨2,
    [⟨"file", "delete", "a.txt", "unreferenced_file", 45, [("extension", .s ".txt")]⟩,
     ⟨"file", "delete", "b.txt", "duplicate_file", 90,
       [("duplicate_of", .s "a.txt"), ("hash", .s "x")]⟩,
     ⟨"file", "delete", "b.txt", "unreferenced_file", 45, [("extension", .s ".txt")]⟩],
    [("duplicate_file", 1), ("unreferenced_file", 2)], 0⟩

/-! ## Theorems -/

/-- The two dead-code walkers agree on every metadata list. -/
theorem deadGo_eq (l : List (String × PyMeta)) :
    find_dead_code.go l = exp_find_dead_code.go l := by
  induction l with
  | nil => simp [find_dead_code.go, exp_find_dead_code.go]
  | cons h t ih => cases h; simp [find_dead_code.go, exp_find_dead_code.go, ih]

/-- C10: the dead-code generator in `experimental/dead_code.py` computes,
for every python index input, exactly the same candidate list as the
dead-code generator embedded in `analyzer.py` (the two implementations
are extensionally equal; in the source they are byte-identical). -/
theorem c10_dead_code_generators_agree (idx : PyIndex) :
    find_dead_code idx = exp_find_dead_code idx := by
  unfold find_dead_code exp_find_dead_code
  exact deadGo_eq idx.metadata

/-- C3: invoking apply mode without the confirmation flag performs zero
filesystem moves, creates no trash directory, and exits with a non-zero
status: the refusal happens before analysis and before `apply_plan`
runs. -/
theorem c3_apply_without_yes_refused (args : Args) (files : List RawFile)
    (ts : String) (fs : FS) (happ : args.apply = true) (hyes : args.yes = false) :
    exitCodeOf (main_run args files ts fs) ≠ 0 ∧
      movesOf (main_run args files ts fs) = [] ∧
      trashCreatedOf (main_run args files ts fs) = false := by
  by_cases hp : args.pathOk <;>
    simp [main_run, hp, happ, hyes, exitCodeOf, movesOf, trashCreatedOf]

/-- Witness for C3 at a concrete invocation. -/
theorem c3_apply_without_yes_refused_witness :
    (Args.mk true true false false none false).apply = true ∧
      (Args.mk true true false false none false).yes = false ∧
      (exitCodeOf (main_run (Args.mk true true false false none false) [] "20240101" []) ≠ 0 ∧
        movesOf (main_run (Args.mk true true false false none false) [] "20240101" []) = [] ∧
        trashCreatedOf (main_run (Args.mk true true false false none false) [] "20240101" []) = false) :=
  ⟨rfl, rfl, c3_apply_without_yes_refused _ [] "20240101" [] rfl rfl⟩

/-- C8: the apply transaction silently skips a candidate that is not a
file deletion, whose path was already moved in the same run, or whose
source no longer exists: the state is unchanged, no undo line is emitted,
and the loop continues over the remaining candidates. -/
theorem c8_apply_skips_silently (ts : String) (st : ApplySt) (c : Candidate)
    (rest : List Candidate)
    (h : c.kind ≠ "file" ∨ c.action ≠ "delete" ∨
      st.undoRels.contains c.path = true ∨ fsGet st.fs c.path = none) :
    applyStep ts st c = st ∧ applyLoop ts st (c :: rest) = applyLoop ts st rest := by
  have hstep : applyStep ts st c = st := by
    rcases h with h | h | h | h
    · simp [applyStep, h]
    · simp [applyStep, h]
    · have hmem : c.path ∈ st.undoRels := by simpa using h
      by_cases hk : c.kind = "file" ∧ c.action = "delete" <;> simp [applyStep, hk, h, hmem]
    · by_cases hk : c.kind = "file" ∧ c.action = "delete" <;>
        by_cases hm : st.undoRels.contains c.path <;> simp [applyStep, hk, hm, h]
  exact ⟨hstep, by simp [applyLoop, List.foldl, hstep]⟩

/-- Witness for C8 at a concrete skipped candidate (a `code`-kind
candidate, as a plan with dead-code entries contains). -/
theorem c8_apply_skips_silently_witness :
    ((Candidate.mk "code" "manual_review" "m.py" "dead_code" 50 []).kind ≠ "file" ∨
        (Candidate.mk "code" "manual_review" "m.py" "dead_code" 50 []).action ≠ "delete" ∨
        (ApplySt.mk [] [] []).undoRels.contains "m.py" = true ∨
        fsGet (ApplySt.mk [] [] []).fs "m.py" = none) ∧
      applyStep "20240101" (ApplySt.mk [] [] [])
          (Candidate.mk "code" "manual_review" "m.py" "dead_code" 50 []) = ApplySt.mk [] [] [] ∧
      applyLoop "20240101" (ApplySt.mk [] [] [])
          [Candidate.mk "code" "manual_review" "m.py" "dead_code" 50 []] =
        applyLoop "20240101" (ApplySt.mk [] [] []) [] :=
  ⟨Or.inl (by decide),
    (c8_apply_skips_silently "20240101" (ApplySt.mk [] [] [])
      (Candidate.mk "code" "manual_review" "m.py" "dead_code" 50 []) [] (Or.inl (by decide))).1,
    (c8_apply_skips_silently "20240101" (ApplySt.mk [] [] [])
      (Candidate.mk "code" "manual_review" "m.py" "dead_code" 50 []) [] (Or.inl (by decide))).2⟩

/-- C2 (code bug): `analyze` in `analyzer.py` has no `dead_code`
parameter and calls `_find_dead_code` unconditionally, so a default run
— with the generator *not* enabled — already contains a `dead_code`
candidate, contradicting the opt-in behaviour its own tests
(`test_dead_code_flag.py`) and caller (`cli.main`, which passes
`dead_code=args.experimental_dead_code`) require.  Evaluation at the
failing input: one file `module.py` with an unused definition, default
threshold 0.4. -/
theorem c2_dead_code_always_on : hasReason (analyze c2World 40) "dead_code" = true := by decide

/-- Membership in `find_unreferenced_files` fixes the reason and pins the
confidence to the location-dependent constant for the candidate's own
path. -/
theorem mem_unref_confidence (textRefs : List String) (idx : PyIndex) :
    ∀ (l : List RawFile) (c : Candidate), c ∈ find_unreferenced_files textRefs idx l →
      (c.reason = "unreferenced_python" ∧ c.confidence = pyConf c.path) ∨
      (c.reason = "unreferenced_file" ∧ c.confidence = fileConf c.path) := by
  intro l
  induction l with
  | nil => intro c hc; simp [find_unreferenced_files] at hc
  | cons f rest ih =>
    intro c hc
    simp only [find_unreferenced_files, List.mem_append] at hc
    rcases hc with hc | hc
    · split at hc
      · split at hc
        · simp only [List.mem_singleton] at hc
          subst hc
          exact Or.inl ⟨rfl, rfl⟩
        · simp at hc
      · split at hc
        · simp only [List.mem_singleton] at hc
          subst hc
          exact Or.inr ⟨rfl, rfl⟩
        · simp at hc
    · exact ih c hc

/-- C9: in the one generator that distinguishes locations
(`_find_unreferenced_files`, in both of its branches), a candidate whose
path has a segment in the experiment/scratch directory set receives a
confidence at least as high as any candidate of the same reason whose
path has no such segment (0.75 vs 0.65 for `unreferenced_python`, 0.6 vs
0.45 for `unreferenced_file`). -/
theorem c9_experiment_confidence_monotone
    (r1 : List String) (i1 : PyIndex) (l1 : List RawFile) (c1 : Candidate)
    (r2 : List String) (i2 : PyIndex) (l2 : List RawFile) (c2 : Candidate)
    (h1 : c1 ∈ find_unreferenced_files r1 i1 l1)
    (h2 : c2 ∈ find_unreferenced_files r2 i2 l2)
    (hr : c1.reason = c2.reason)
    (he1 : hasExpSegment c1.path = true)
    (he2 : hasExpSegment c2.path = false) :
    c2.confidence ≤ c1.confidence := by
  rcases mem_unref_confidence r1 i1 l1 c1 h1 with ⟨hra, hca⟩ | ⟨hra, hca⟩ <;>
    rcases mem_unref_confidence r2 i2 l2 c2 h2 with ⟨hrb, hcb⟩ | ⟨hrb, hcb⟩
  · rw [hca, hcb]; simp [pyConf, he1, he2]
  · rw [hra, hrb] at hr; exact absurd hr (by decide)
  · rw [hra, hrb] at hr; exact absurd hr (by decide)
  · rw [hca, hcb]; simp [fileConf, he1, he2]

/-- Witness for C9: a scratch-directory python file versus a top-level
python file. -/
theorem c9_experiment_confidence_monotone_witness :
    pyCand "experiments/a.py" "experiments.a" ∈
        find_unreferenced_files [] (PyIndex.mk [] [] [])
          [RawFile.mk "experiments/a.py" true 1 ".py" (some "") none false] ∧
      pyCand "b.py" "b" ∈
        find_unreferenced_files [] (PyIndex.mk [] [] [])
          [RawFile.mk "b.py" true 1 ".py" (some "") none false] ∧
      (pyCand "experiments/a.py" "experiments.a").reason = (pyCand "b.py" "b").reason ∧
      hasExpSegment (pyCand "experiments/a.py" "experiments.a").path = true ∧
      hasExpSegment (pyCand "b.py" "b").path = false ∧
      (pyCand "b.py" "b").confidence ≤ (pyCand "experiments/a.py" "experiments.a").confidence :=
  ⟨by decide, by decide, by decide, by decide, by decide,
    c9_experiment_confidence_monotone [] (PyIndex.mk [] [] [])
      [RawFile.mk "experiments/a.py" true 1 ".py" (some "") none false]
      (pyCand "experiments/a.py" "experiments.a")
      [] (PyIndex.mk [] [] [])
      [RawFile.mk "b.py" true 1 ".py" (some "") none false] (pyCand "b.py" "b")
      (by decide) (by decide) (by decide) (by decide) (by decide)⟩

/-! ## Order facts about the embedded comparison relations -/

theorem charsLt_irrefl : ∀ x : List Char, charsLt x x = false := by
  intro x
  induction x with
  | nil => simp [charsLt]
  | cons a as ih => simp [charsLt, ih]

theorem charsLt_trans :
    ∀ x y z : List Char, charsLt x y = true → charsLt y z = true → charsLt x z = true := by
  intro x
  induction x with
  | nil =>
    intro y z hxy hyz
    cases y with
    | nil => simp [charsLt] at hxy
    | cons b bs =>
      cases z with
      | nil => simp [charsLt] at hyz
      | cons c cs => simp [charsLt]
  | cons a as ih =>
    intro y z hxy hyz
    cases y with
    | nil => simp [charsLt] at hxy
    | cons b bs =>
      cases z with
      | nil => simp [charsLt] at hyz
      | cons c cs =>
        simp only [charsLt] at hxy hyz ⊢
        by_cases h1 : a < b
        · by_cases h2 : b < c
          · simp [lt_trans h1 h2]
          · rw [if_neg h2] at hyz
            by_cases h3 : c < b
            · rw [if_pos h3] at hyz; exact absurd hyz (by simp)
            · have hbc : b = c := le_antisymm (not_lt.mp h3) (not_lt.mp h2)
              subst hbc; simp [h1]
        · rw [if_neg h1] at hxy
          by_cases h1' : b < a
          · rw [if_pos h1'] at hxy; exact absurd hxy (by simp)
          · rw [if_neg h1'] at hxy
            have hab : a = b := le_antisymm (not_lt.mp h1') (not_lt.mp h1)
            subst hab
            by_cases h2 : a < c
            · simp [h2]
            · rw [if_neg h2] at hyz ⊢
              by_cases h3 : c < a
              · rw [if_pos h3] at hyz; exact absurd hyz (by simp)
              · rw [if_neg h3] at hyz ⊢
                exact ih bs cs hxy hyz

theorem charsLt_connex :
    ∀ x y : List Char, charsLt x y = false → charsLt y x = false → x = y := by
  intro x
  induction x with
  | nil =>
    intro y hxy _
    cases y with
    | nil => rfl
    | cons b bs => simp [charsLt] at hxy
  | cons a as ih =>
    intro y hxy hyx
    cases y with
    | nil => simp [charsLt] at hyx
    | cons b bs =>
      simp only [charsLt] at hxy hyx
      by_cases h1 : a < b
      · rw [if_pos h1] at hxy; exact absurd hxy (by simp)
      · by_cases h2 : b < a
        · rw [if_pos h2] at hyx; exact absurd hyx (by simp)
        · have hab : a = b := le_antisymm (not_lt.mp h2) (not_lt.mp h1)
          subst hab
          rw [if_neg h1, if_neg h1] at hxy
          rw [if_neg h1, if_neg h1] at hyx
          rw [ih bs hxy hyx]

theorem strLtB_trans (a b c : String) (h1 : strLtB a b = true) (h2 : strLtB b c = true) :
    strLtB a c = true :=
  charsLt_trans a.data b.data c.data h1 h2

theorem str_eq_of_nlt (a b : String) (h1 : strLtB a b = false) (h2 : strLtB b a = false) :
    a = b := by
  have hd := charsLt_connex a.data b.data h1 h2
  cases a; cases b; exact congrArg String.mk hd

theorem strLtB_asymm (a b : String) (h : strLtB a b = true) : strLtB b a = false := by
  by_contra hc
  have hc' : strLtB b a = true := by simpa using hc
  have := strLtB_trans a b a h hc'
  rw [show strLtB a a = charsLt a.data a.data from rfl, charsLt_irrefl] at this
  exact absurd this (by simp)

theorem strLeB_eq_not_lt (a b : String) : strLeB a b = ! strLtB b a := rfl

theorem strLeB_total (a b : String) : strLeB a b = true ∨ strLeB b a = true := by
  by_cases h : strLtB b a = true
  · right; rw [strLeB_eq_not_lt, strLtB_asymm b a h]; rfl
  · left; rw [strLeB_eq_not_lt]; simp [Bool.eq_false_iff.mpr h]

theorem strLeB_trans (a b c : String) (h1 : strLeB a b = true) (h2 : strLeB b c = true) :
    strLeB a c = true := by
  rw [strLeB_eq_not_lt] at h1 h2 ⊢
  have h1' : strLtB b a = false := by simpa using h1
  have h2' : strLtB c b = false := by simpa using h2
  by_contra hc
  have hca : strLtB c a = true := by simpa using hc
  by_cases h3 : strLtB a b = true
  · have := strLtB_trans c a b hca h3
    rw [this] at h2'; exact absurd h2' (by simp)
  · have hab : a = b := str_eq_of_nlt a b (Bool.eq_false_iff.mpr h3) h1'
    subst hab
    rw [hca] at h2'; exact absurd h2' (by simp)

theorem candR_total : ∀ a b : Candidate, candR a b ∨ candR b a := by
  intro a b
  by_cases hk : strLtB a.kind b.kind = true
  · exact Or.inl (Or.inl hk)
  · by_cases hk' : strLtB b.kind a.kind = true
    · exact Or.inr (Or.inl hk')
    · have hke : a.kind = b.kind :=
        str_eq_of_nlt _ _ (Bool.eq_false_iff.mpr hk) (Bool.eq_false_iff.mpr hk')
      by_cases hp : strLtB a.path b.path = true
      · exact Or.inl (Or.inr ⟨hke, Or.inl hp⟩)
      · by_cases hp' : strLtB b.path a.path = true
        · exact Or.inr (Or.inr ⟨hke.symm, Or.inl hp'⟩)
        · have hpe : a.path = b.path :=
            str_eq_of_nlt _ _ (Bool.eq_false_iff.mpr hp) (Bool.eq_false_iff.mpr hp')
          rcases strLeB_total a.reason b.reason with hr | hr
          · exact Or.inl (Or.inr ⟨hke, Or.inr ⟨hpe, hr⟩⟩)
          · exact Or.inr (Or.inr ⟨hke.symm, Or.inr ⟨hpe.symm, hr⟩⟩)

theorem candR_trans : ∀ a b c : Candidate, candR a b → candR b c → candR a c := by
  intro a b c hab hbc
  rcases hab with hab | ⟨hke, hab⟩
  · rcases hbc with hbc | ⟨hke', _⟩
    · exact Or.inl (strLtB_trans _ _ _ hab hbc)
    · exact Or.inl (hke' ▸ hab)
  · rcases hbc with hbc | ⟨hke', hbc⟩
    · exact Or.inl (hke ▸ hbc)
    · refine Or.inr ⟨hke.trans hke', ?_⟩
      rcases hab with hab | ⟨hpe, hab⟩
      · rcases hbc with hbc | ⟨hpe', _⟩
        · exact Or.inl (strLtB_trans _ _ _ hab hbc)
        · exact Or.inl (hpe' ▸ hab)
      · rcases hbc with hbc | ⟨hpe', hbc⟩
        · exact Or.inl (hpe ▸ hbc)
        · exact Or.inr ⟨hpe.trans hpe', strLeB_trans _ _ _ hab hbc⟩

instance : IsTotal Candidate candR := ⟨candR_total⟩

instance : IsTrans Candidate candR := ⟨candR_trans⟩

theorem fiR_total : ∀ a b : RawFile, fiR a b ∨ fiR b a := by
  intro a b
  rcases Nat.lt_trichotomy a.rel_path.length b.rel_path.length with h | h | h
  · exact Or.inl (Or.inl h)
  · rcases strLeB_total a.rel_path b.rel_path with hs | hs
    · exact Or.inl (Or.inr ⟨h, hs⟩)
    · exact Or.inr (Or.inr ⟨h.symm, hs⟩)
  · exact Or.inr (Or.inl h)

theorem fiR_trans : ∀ a b c : RawFile, fiR a b → fiR b c → fiR a c := by
  intro a b c hab hbc
  rcases hab with hab | ⟨he, hab⟩
  · rcases hbc with hbc | ⟨he', _⟩
    · exact Or.inl (lt_trans hab hbc)
    · exact Or.inl (he' ▸ hab)
  · rcases hbc with hbc | ⟨he', hbc⟩
    · exact Or.inl (he ▸ hbc)
    · exact Or.inr ⟨he.trans he', strLeB_trans _ _ _ hab hbc⟩

instance : IsTotal RawFile fiR := ⟨fiR_total⟩

instance : IsTrans RawFile fiR := ⟨fiR_trans⟩

/-- Destructing a successful `analyze` run into its stages. -/
theorem analyze_ok_elim {files : List RawFile} {τ : Nat} {p : Plan}
    (h : analyze files τ = .ok p) :
    ∃ infos all, collectInfos files = .ok infos ∧ rawCandidates infos = .ok all ∧
      p.candidates = List.insertionSort candR (all.filter (fun c => τ ≤ c.confidence)) := by
  unfold analyze at h
  cases hinfos : collectInfos files with
  | error e => rw [hinfos] at h; simp [Bind.bind, Except.bind] at h
  | ok infos =>
    rw [hinfos] at h
    simp only [Bind.bind, Except.bind] at h
    cases hall : rawCandidates infos with
    | error e =>
      rw [hall] at h
      exact Except.noConfusion h
    | ok all =>
      rw [hall] at h
      simp only [pure, Except.pure, Except.ok.injEq] at h
      exact ⟨infos, all, rfl, hall, by rw [← h]⟩

/-- C6 (corrected): the plan of `c6World` at threshold 0 is a completed
analysis whose candidate list, in order, is `unreferenced_file a.txt`,
`duplicate_file b.txt`, `unreferenced_file b.txt` — which is *not* sorted
with reason as the primary key: `analyze` sorts by
`(kind, path, reason)`, not `(reason, path)`. -/
theorem c6_sort_key_counterexample :
    isOkB (analyze c6World 0) = true ∧
      planReasonPaths (analyze c6World 0) =
        [("unreferenced_file", "a.txt"), ("duplicate_file", "b.txt"),
          ("unreferenced_file", "b.txt")] ∧
      okSortedByReasonPath (analyze c6World 0) = false := by decide

/-- C6 (amended): after dropping candidates below the caller-supplied
threshold (candidates at exactly the threshold are kept), the remaining
candidates are deterministically sorted with *kind* as the primary key,
*path* as the secondary key and *reason* as the tie-break; the plan's
candidate list is exactly the kept candidates, so repeated runs over
unchanged input agree modulo the timestamp field. -/
theorem c6_plan_ordering_amended (files : List RawFile) (τ : Nat) (p : Plan)
    (h : analyze files τ = .ok p) :
    List.Sorted candR p.candidates ∧
      (∀ c ∈ p.candidates, τ ≤ c.confidence) ∧
      ∃ infos all, collectInfos files = .ok infos ∧ rawCandidates infos = .ok all ∧
        p.candidates.Perm (all.filter (fun c => τ ≤ c.confidence)) := by
  obtain ⟨infos, all, hinfos, hall, hc⟩ := analyze_ok_elim h
  refine ⟨?_, ?_, infos, all, hinfos, hall, ?_⟩
  · rw [hc]; exact List.sorted_insertionSort candR _
  · intro c hcmem
    rw [hc] at hcmem
    have hmem := (List.perm_insertionSort candR _).mem_iff.mp hcmem
    exact of_decide_eq_true (List.mem_filter.mp hmem).2
  · rw [hc]; exact List.perm_insertionSort candR _

/-- Witness for the amended C6 on the concrete `c6World` run. -/
theorem c6_plan_ordering_amended_witness :
    List.Sorted candR c6Plan.candidates ∧
      (∀ c ∈ c6Plan.candidates, 0 ≤ c.confidence) ∧
      ∃ infos all, collectInfos c6World = .ok infos ∧ rawCandidates infos = .ok all ∧
        c6Plan.candidates.Perm (all.filter (fun c => 0 ≤ c.confidence)) :=
  c6_plan_ordering_amended c6World 0 c6Plan (by decide)

/-- A collection whose files all stat successfully yields itself. -/
theorem collectInfos_ok (files : List RawFile) (h : ∀ f ∈ files, f.statOk = true) :
    collectInfos files = .ok files := by
  induction files with
  | nil => rfl
  | cons f rest ih =>
    have hf : f.statOk = true := h f (by simp)
    have hrest := ih (fun g hg => h g (by simp [hg]))
    simp only [collectInfos] at hrest ⊢
    rw [List.mapM_cons, hrest]
    simp [file_info, hf, Bind.bind, Except.bind, pure, Except.pure]

/-- Hash grouping succeeds as long as every non-empty file is readable. -/
theorem buildHashes_ok :
    ∀ (files : List RawFile) (acc : List (String × List RawFile)),
      (∀ f ∈ files, f.size ≠ 0 → f.content.isSome) →
      ∃ r, buildHashes files acc = .ok r := by
  intro files
  induction files with
  | nil => intro acc _; exact ⟨acc, rfl⟩
  | cons f rest ih =>
    intro acc h
    by_cases hz : f.size = 0
    · simpa [buildHashes, hz] using ih acc (fun g hg hs => h g (by simp [hg]) hs)
    · have hc := h f (by simp) hz
      cases hcontent : f.content with
      | none => rw [hcontent] at hc; simp at hc
      | some c =>
        simp only [buildHashes, hz, if_neg, hash_file, hcontent]
        exact ih _ (fun g hg hs => h g (by simp [hg]) hs)

/-- C7 (corrected): a non-empty file whose content cannot be read aborts
the whole analysis: `_find_duplicate_files` calls `_hash_file` with no
`try`/`except`, so the `OSError` propagates out of `analyze` instead of
excluding the file (`c7World` stats fine but its first file is
unreadable). -/
theorem c7_hash_read_error_aborts :
    (∀ f ∈ c7World, f.statOk = true) ∧ isOkB (analyze c7World 0) = false := by decide

/-- C7 (amended): read errors tolerated by the guarded stages are
non-fatal — the analysis completes and returns a plan whenever every file
stats successfully and every non-empty file is readable, regardless of
parse failures (`pyFacts = none`) or unreadable empty files; but an
unreadable non-empty file aborts the run at the hashing stage, and a
failing `stat` aborts it at the info stage. -/
theorem c7_read_errors_amended (files : List RawFile) (τ : Nat)
    (hstat : ∀ f ∈ files, f.statOk = true)
    (hread : ∀ f ∈ files, f.size ≠ 0 → f.content.isSome) :
    ∃ p, analyze files τ = .ok p := by
  have hinfos := collectInfos_ok files hstat
  obtain ⟨r, hr⟩ := buildHashes_ok files [] hread
  unfold analyze rawCandidates find_duplicate_files
  rw [hinfos]
  simp [Bind.bind, Except.bind, hr, pure, Except.pure]

/-- Witness for the amended C7: a world with an unparseable source file
and a readable companion still analyzes to completion. -/
theorem c7_read_errors_amended_witness :
    (∀ f ∈ [RawFile.mk "bad.py" true 5 ".py" (some "def (") none false, txtFile "ok.txt" "y"],
        f.statOk = true) ∧
      (∀ f ∈ [RawFile.mk "bad.py" true 5 ".py" (some "def (") none false, txtFile "ok.txt" "y"],
        f.size ≠ 0 → f.content.isSome) ∧
      ∃ p, analyze [RawFile.mk "bad.py" true 5 ".py" (some "def (") none false,
        txtFile "ok.txt" "y"] 0 = .ok p :=
  ⟨by decide, by decide,
    c7_read_errors_amended _ 0 (by decide) (by decide)⟩

/-! ## Dictionary lemmas -/

theorem dget_dinsert_self {α : Type} (d : List (String × α)) (k : String) (v : α) :
    dget (dinsert d k v) k = some v := by
  induction d with
  | nil => simp [dinsert, dget]
  | cons e rest ih =>
    by_cases h : k = e.1
    · cases e; simp_all [dinsert, dget]
    · cases e; simp_all [dinsert, dget]

theorem dget_dinsert_ne {α : Type} (d : List (String × α)) (k q : String) (v : α)
    (h : q ≠ k) : dget (dinsert d k v) q = dget d q := by
  induction d with
  | nil => simp [dinsert, dget, h]
  | cons e rest ih =>
    cases e with
    | mk k' v' =>
      by_cases h' : k = k'
      · subst h'; simp [dinsert, dget, h]
      · by_cases h'' : q = k' <;> simp [dinsert, dget, h', h'', ih]

theorem dget_mem {α : Type} (d : List (String × α)) (k : String) (v : α)
    (h : dget d k = some v) : (k, v) ∈ d := by
  induction d with
  | nil => simp [dget] at h
  | cons e rest ih =>
    cases e with
    | mk k' v' =>
      by_cases h' : k = k'
      · subst h'; simp [dget] at h; simp [h]
      · simp [dget, h'] at h; simp [ih h]

/-- Keys of an association list. -/
def dkeys {α : Type} (d : List (String × α)) : List String := d.map (fun e => e.1)

theorem dget_isSome_iff_mem_dkeys {α : Type} (d : List (String × α)) (k : String) :
    (dget d k).isSome = true ↔ k ∈ dkeys d := by
  induction d with
  | nil => simp [dget, dkeys]
  | cons e rest ih =>
    cases e with
    | mk k' v' =>
      by_cases h : k = k'
      · simp [dget, dkeys, h]
      · simp only [dget, if_neg h, dkeys, List.map_cons, List.mem_cons]
        rw [show (List.map (fun e => e.1) rest) = dkeys rest from rfl]
        simp [ih, h]

theorem dkeys_dinsert_mem {α : Type} (d : List (String × α)) (k : String) (v : α)
    (h : k ∈ dkeys d) : dkeys (dinsert d k v) = dkeys d := by
  induction d with
  | nil => simp [dkeys] at h
  | cons e rest ih =>
    cases e with
    | mk k' v' =>
      by_cases h' : k = k'
      · subst h'; simp [dinsert, dkeys]
      · simp only [dkeys, List.map_cons, List.mem_cons] at h
        rcases h with h | h
        · exact absurd h h'
        · simp only [dinsert, if_neg h', dkeys, List.map_cons, List.cons.injEq, true_and]
          exact ih h

theorem dkeys_dinsert_not_mem {α : Type} (d : List (String × α)) (k : String) (v : α)
    (h : k ∉ dkeys d) : dkeys (dinsert d k v) = dkeys d ++ [k] := by
  induction d with
  | nil => simp [dinsert, dkeys]
  | cons e rest ih =>
    cases e with
    | mk k' v' =>
      simp only [dkeys, List.map_cons, List.mem_cons, not_or] at h
      have hne : k ≠ k' := h.1
      simp only [dinsert, if_neg hne, dkeys, List.map_cons, List.cons_append,
        List.cons.injEq, true_and]
      exact ih h.2

theorem dkeys_dinsert_nodup {α : Type} (d : List (String × α)) (k : String) (v : α)
    (h : (dkeys d).Nodup) : (dkeys (dinsert d k v)).Nodup := by
  by_cases hk : k ∈ dkeys d
  · rw [dkeys_dinsert_mem d k v hk]; exact h
  · rw [dkeys_dinsert_not_mem d k v hk]
    simpa [List.nodup_append] using ⟨h, hk⟩

/-! ## Structure of the python index -/

theorem dget_buildModules_no_key (m : String) :
    ∀ (infos : List RawFile) (acc : List (String × RawFile)),
      (∀ g ∈ infos, g.extension = ".py" → module_name g.rel_path ≠ m) →
      dget (buildModules infos acc) m = dget acc m := by
  intro infos
  induction infos with
  | nil => intro acc _; rfl
  | cons g rest ih =>
    intro acc h
    by_cases hpy : g.extension = ".py"
    · have hne := h g (by simp) hpy
      simp only [buildModules, if_pos hpy]
      rw [ih _ (fun g' hg' => h g' (by simp [hg']))]
      exact dget_dinsert_ne _ _ _ _ (Ne.symm hne)
    · simp only [buildModules, if_neg hpy]
      exact ih _ (fun g' hg' => h g' (by simp [hg']))

theorem dget_buildModules (m : String) (f : RawFile) (hpy : f.extension = ".py")
    (hm : module_name f.rel_path = m) :
    ∀ (infos : List RawFile) (acc : List (String × RawFile)),
      f ∈ infos →
      (∀ g ∈ infos, g.extension = ".py" → module_name g.rel_path = m → g = f) →
      dget (buildModules infos acc) m = some f := by
  intro infos
  induction infos with
  | nil => intro acc h _; simp at h
  | cons g rest ih =>
    intro acc hf huniq
    by_cases hfr : f ∈ rest
    · simp only [buildModules]
      exact ih _ hfr (fun g' h1 h2 h3 => huniq g' (by simp [h1]) h2 h3)
    · have hfg : f = g := by
        rcases List.mem_cons.mp hf with h | h
        · exact h
        · exact absurd h hfr
      subst hfg
      have hrest : ∀ g' ∈ rest, g'.extension = ".py" → module_name g'.rel_path ≠ m := by
        intro g' hg' h1 h2
        have hgf := huniq g' (by simp [hg']) h1 h2
        exact hfr (hgf ▸ hg')
      simp only [buildModules, if_pos hpy, hm]
      rw [dget_buildModules_no_key m rest _ hrest]
      exact dget_dinsert_self acc m f

theorem buildModules_keys_nodup :
    ∀ (infos : List RawFile) (acc : List (String × RawFile)),
      (dkeys acc).Nodup → (dkeys (buildModules infos acc)).Nodup := by
  intro infos
  induction infos with
  | nil => intro acc h; exact h
  | cons g rest ih =>
    intro acc h
    by_cases hpy : g.extension = ".py"
    · simp only [buildModules, if_pos hpy]
      exact ih _ (dkeys_dinsert_nodup _ _ _ h)
    · simp only [buildModules, if_neg hpy]
      exact ih _ h

theorem buildMeta_no_key (m : String) :
    ∀ (mods : List (String × RawFile)) (imps : List (String × List String))
      (meta : List (String × PyMeta)),
      (∀ e ∈ mods, e.1 ≠ m) →
      dget (buildMeta mods imps meta).1 m = dget imps m ∧
        dget (buildMeta mods imps meta).2 m = dget meta m := by
  intro mods
  induction mods with
  | nil => intro imps meta _; exact ⟨rfl, rfl⟩
  | cons e rest ih =>
    intro imps meta h
    cases e with
    | mk k g =>
      have hk : k ≠ m := h (k, g) (by simp)
      cases hg : g.pyFacts with
      | none =>
        simp only [buildMeta, hg]
        exact ih _ _ (fun e' he' => h e' (by simp [he']))
      | some fc =>
        simp only [buildMeta, hg]
        obtain ⟨h1, h2⟩ :=
          ih (dinsert imps k fc.imports)
            (dinsert meta k ⟨g.rel_path, fc.is_script, fc.exports, fc.defs, fc.used⟩)
            (fun e' he' => h e' (by simp [he']))
        rw [h1, h2, dget_dinsert_ne _ _ _ _ (Ne.symm hk), dget_dinsert_ne _ _ _ _ (Ne.symm hk)]
        exact ⟨rfl, rfl⟩

theorem buildMeta_entry (m : String) (f : RawFile) :
    ∀ (mods : List (String × RawFile)) (imps : List (String × List String))
      (meta : List (String × PyMeta)),
      (m, f) ∈ mods → (dkeys mods).Nodup →
      (dget (buildMeta mods imps meta).1 m =
        match f.pyFacts with
        | none => dget imps m
        | some fc => some fc.imports) ∧
      (dget (buildMeta mods imps meta).2 m =
        match f.pyFacts with
        | none => dget meta m
        | some fc => some ⟨f.rel_path, fc.is_script, fc.exports, fc.defs, fc.used⟩) := by
  intro mods
  induction mods with
  | nil => intro _ _ h _; simp at h
  | cons e rest ih =>
    intro imps meta hmem hnd
    cases e with
    | mk k g =>
      rcases List.mem_cons.mp hmem with he | he
      · injection he with h1 h2
        subst h1
        subst h2
        have hrest : ∀ e' ∈ rest, e'.1 ≠ m := by
          intro e' he' heq
          simp only [dkeys, List.map_cons, List.nodup_cons] at hnd
          exact hnd.1 (heq ▸ List.mem_map_of_mem (fun e => e.1) he')
        cases hg : f.pyFacts with
        | none =>
          simp only [buildMeta, hg]
          have hnk := buildMeta_no_key m rest imps meta hrest
          exact ⟨hnk.1, hnk.2⟩
        | some fc =>
          simp only [buildMeta, hg]
          have hnk := buildMeta_no_key m rest (dinsert imps m fc.imports)
            (dinsert meta m ⟨f.rel_path, fc.is_script, fc.exports, fc.defs, fc.used⟩) hrest
          rw [hnk.1, hnk.2, dget_dinsert_self, dget_dinsert_self]
          exact ⟨rfl, rfl⟩
      · have hkm : k ≠ m := by
          intro heq
          subst heq
          simp only [dkeys, List.map_cons, List.nodup_cons] at hnd
          exact hnd.1 (List.mem_map_of_mem (fun e => e.1) he)
        have hnd' : (dkeys rest).Nodup := by
          simp only [dkeys, List.map_cons, List.nodup_cons] at hnd
          exact hnd.2
        cases hg : g.pyFacts with
        | none =>
          simp only [buildMeta, hg]
          exact ih _ _ he hnd'
        | some fc =>
          simp only [buildMeta, hg]
          obtain ⟨h1, h2⟩ :=
            ih (dinsert imps k fc.imports)
              (dinsert meta k ⟨g.rel_path, fc.is_script, fc.exports, fc.defs, fc.used⟩) he hnd'
          constructor
          · rw [h1]
            cases hfp : f.pyFacts with
            | none => exact dget_dinsert_ne _ _ _ _ (Ne.symm hkm)
            | some fc' => rfl
          · rw [h2]
            cases hfp : f.pyFacts with
            | none => exact dget_dinsert_ne _ _ _ _ (Ne.symm hkm)
            | some fc' => rfl

theorem mem_buildReferenced (modules : List (String × RawFile)) (m : String) :
    ∀ imps : List (String × List String),
      m ∈ buildReferenced modules imps ↔
        ∃ e ∈ imps, m ∈ e.2 ∧ (dget modules m).isSome = true := by
  intro imps
  induction imps with
  | nil => simp [buildReferenced]
  | cons e rest ih =>
    cases e with
    | mk k imp =>
      simp only [buildReferenced, List.mem_append, List.mem_filter, ih]
      constructor
      · rintro (⟨hm, hs⟩ | ⟨e', he', hm, hs⟩)
        · exact ⟨(k, imp), by simp, hm, hs⟩
        · exact ⟨e', by simp [he'], hm, hs⟩
      · rintro ⟨e', he', hm, hs⟩
        rcases List.mem_cons.mp he' with he'' | he''
        · subst he''; exact Or.inl ⟨hm, hs⟩
        · exact Or.inr ⟨e', he'', hm, hs⟩

/-- Under unique module resolution, the `is_script` flag the generator
reads for a file's module is the file's own entry-point-guard flag. -/
theorem metaIsScript_build (infos : List RawFile) (f : RawFile)
    (hf : f ∈ infos) (hpy : f.extension = ".py")
    (huniq : ∀ g ∈ infos, g.extension = ".py" →
      module_name g.rel_path = module_name f.rel_path → g = f) :
    metaIsScript (build_python_index infos) (module_name f.rel_path) = fileIsScript f := by
  have hmods : dget (buildModules infos []) (module_name f.rel_path) = some f :=
    dget_buildModules _ f hpy rfl infos [] hf huniq
  have hmem : (module_name f.rel_path, f) ∈ buildModules infos [] := dget_mem _ _ _ hmods
  have hnd : (dkeys (buildModules infos [])).Nodup :=
    buildModules_keys_nodup infos [] (by simp [dkeys])
  have hentry := (buildMeta_entry _ f (buildModules infos []) [] [] hmem hnd).2
  show ((dget (build_python_index infos).metadata (module_name f.rel_path)).map
      (fun meta => meta.is_script)).getD false = fileIsScript f
  have hmeta : (build_python_index infos).metadata =
      (buildMeta (buildModules infos []) [] []).2 := rfl
  rw [hmeta, hentry]
  cases hfp : f.pyFacts with
  | none => simp [fileIsScript, hfp, dget]
  | some fc => simp [fileIsScript, hfp]

/-- Every candidate `_find_unreferenced_files` emits carries the relative
path of one of the scanned files. -/
theorem unref_paths (textRefs : List String) (idx : PyIndex) :
    ∀ (l : List RawFile) (c : Candidate), c ∈ find_unreferenced_files textRefs idx l →
      ∃ g ∈ l, c.path = g.rel_path := by
  intro l
  induction l with
  | nil => intro c hc; simp [find_unreferenced_files] at hc
  | cons f rest ih =>
    intro c hc
    simp only [find_unreferenced_files, List.mem_append] at hc
    rcases hc with hc | hc
    · split at hc
      · split at hc
        · simp only [List.mem_singleton] at hc
          exact ⟨f, by simp, by rw [hc]; rfl⟩
        · simp at hc
      · split at hc
        · simp only [List.mem_singleton] at hc
          exact ⟨f, by simp, by rw [hc]; rfl⟩
        · simp at hc
    · obtain ⟨g, hg, hp⟩ := ih c hc
      exact ⟨g, by simp [hg], hp⟩

/-- Per-file characterisation of the python branch of
`_find_unreferenced_files`, under unique relative paths: a `.py` file
contributes a candidate (necessarily the python candidate for its
module) exactly when its module is unreferenced, its module metadata has
no entry-point guard, and it is not an `__init__.py`. -/
theorem unref_mem_py (textRefs : List String) (idx : PyIndex) :
    ∀ (infos : List RawFile), (infos.map (fun g => g.rel_path)).Nodup →
      ∀ f ∈ infos, f.extension = ".py" →
        ((∃ c ∈ find_unreferenced_files textRefs idx infos, c.path = f.rel_path) ↔
          (¬ idx.referenced.contains (module_name f.rel_path) ∧
            ¬ metaIsScript idx (module_name f.rel_path) ∧ ¬ isInitFile f.rel_path)) ∧
        (∀ c ∈ find_unreferenced_files textRefs idx infos, c.path = f.rel_path →
          c = pyCand f.rel_path (module_name f.rel_path)) := by
  intro infos
  induction infos with
  | nil => intro _ f hf; simp at hf
  | cons g rest ih =>
    intro hnd f hf hpy
    have hnd0 : g.rel_path ∉ rest.map (fun g => g.rel_path) ∧
        (rest.map (fun g => g.rel_path)).Nodup := by
      simpa using List.nodup_cons.mp hnd
    rcases List.mem_cons.mp hf with hfg | hfr
    · subst hfg
      have htail : ∀ c ∈ find_unreferenced_files textRefs idx rest, c.path ≠ f.rel_path := by
        intro c hc heq
        obtain ⟨g', hg', hp⟩ := unref_paths textRefs idx rest c hc
        refine hnd0.1 ?_
        rw [heq.symm.trans hp]
        exact List.mem_map_of_mem (fun g => g.rel_path) hg'
      constructor
      · constructor
        · rintro ⟨c, hc, hcp⟩
          simp only [find_unreferenced_files, List.mem_append] at hc
          rcases hc with hc | hc
          · rw [if_pos hpy] at hc
            by_cases hcond : (¬ idx.referenced.contains (module_name f.rel_path) ∧
                ¬ metaIsScript idx (module_name f.rel_path) ∧ ¬ isInitFile f.rel_path)
            · exact hcond
            · rw [if_neg hcond] at hc; simp at hc
          · exact absurd hcp (htail c hc)
        · intro hcond
          refine ⟨pyCand f.rel_path (module_name f.rel_path), ?_, rfl⟩
          simp only [find_unreferenced_files, List.mem_append]
          left
          rw [if_pos hpy, if_pos hcond]
          simp
      · intro c hc hcp
        simp only [find_unreferenced_files, List.mem_append] at hc
        rcases hc with hc | hc
        · rw [if_pos hpy] at hc
          split at hc
          · simpa using hc
          · simp at hc
        · exact absurd hcp (htail c hc)
    · have hne : g.rel_path ≠ f.rel_path := by
        intro heq
        exact hnd0.1 (heq ▸ List.mem_map_of_mem (fun g => g.rel_path) hfr)
      have hhead : ∀ c ∈ (if g.extension = ".py" then
          (if ¬ idx.referenced.contains (module_name g.rel_path) ∧
              ¬ metaIsScript idx (module_name g.rel_path) ∧ ¬ isInitFile g.rel_path then
            [pyCand g.rel_path (module_name g.rel_path)] else [])
        else
          (if ¬ textRefs.contains g.rel_path ∧ ¬ textRefs.contains (fileName g.rel_path) then
            [fileCand g.rel_path g.extension] else [])), c.path ≠ f.rel_path := by
        intro c hc
        split at hc
        · split at hc
          · simp only [List.mem_singleton] at hc; rw [hc]; exact hne
          · simp at hc
        · split at hc
          · simp only [List.mem_singleton] at hc; rw [hc]; exact hne
          · simp at hc
      obtain ⟨hiff, hpin⟩ := ih hnd0.2 f hfr hpy
      constructor
      · rw [← hiff]
        constructor
        · rintro ⟨c, hc, hcp⟩
          simp only [find_unreferenced_files, List.mem_append] at hc
          rcases hc with hc | hc
          · exact absurd hcp (hhead c hc)
          · exact ⟨c, hc, hcp⟩
        · rintro ⟨c, hc, hcp⟩
          refine ⟨c, ?_, hcp⟩
          simp only [find_unreferenced_files, List.mem_append]
          exact Or.inr hc
      · intro c hc hcp
        simp only [find_unreferenced_files, List.mem_append] at hc
        rcases hc with hc | hc
        · exact absurd hcp (hhead c hc)
        · exact hpin c hc hcp

/-- C5 (corrected): the claim's entry-point exemption fails when two
scanned files resolve to the same module name.  `a.py` carries an
entry-point guard, but `a/__init__.py` (collected after it) overwrites
the `modules["a"]` entry, so only `__init__` is parsed and its metadata
(no guard) is what the generator consults: the guarded `a.py` is flagged
`unreferenced_python` anyway. -/
theorem c5_module_collision_counterexample :
    module_name "a.py" = "a" ∧ module_name "a/__init__.py" = "a" ∧
      fileIsScript c5CexPy = true ∧
      pyCand "a.py" "a" ∈ find_unreferenced_files []
        (build_python_index [c5CexPy, c5CexInit]) [c5CexPy, c5CexInit] ∧
      (pyCand "a.py" "a").reason = "unreferenced_python" := by decide

/-- C5 (amended): for every scanned structured-source file (under the
unique-relative-paths scan invariant), an `unreferenced_python`
candidate for the file is produced — necessarily `pyCand`, i.e. at
confidence 0.65, or 0.75 under an experiment/scratch segment — if and
only if its module is not in the one-hop import-reachability set, the
*indexed metadata of its module name* carries no entry-point guard, and
it is not a package-entry (`__init__.py`) file.  When additionally no
two scanned structured-source files resolve to the same module name,
the guard consulted is the file's own, and no such candidate is ever
raised for a file whose module is imported by a scanned, parsed
module. -/
theorem c5_unreferenced_python_amended (infos : List RawFile) (textRefs : List String)
    (hnodup : (infos.map (fun g => g.rel_path)).Nodup)
    (f : RawFile) (hf : f ∈ infos) (hpy : f.extension = ".py") :
    ((∃ c ∈ find_unreferenced_files textRefs (build_python_index infos) infos,
        c.path = f.rel_path) ↔
      (¬ (build_python_index infos).referenced.contains (module_name f.rel_path) ∧
        ¬ metaIsScript (build_python_index infos) (module_name f.rel_path) ∧
        ¬ isInitFile f.rel_path)) ∧
    (∀ c ∈ find_unreferenced_files textRefs (build_python_index infos) infos,
      c.path = f.rel_path → c = pyCand f.rel_path (module_name f.rel_path)) ∧
    ((∀ a ∈ infos, ∀ b ∈ infos, a.extension = ".py" → b.extension = ".py" →
        module_name a.rel_path = module_name b.rel_path → a.rel_path = b.rel_path) →
      metaIsScript (build_python_index infos) (module_name f.rel_path) = fileIsScript f ∧
      ((∃ g ∈ infos, g.extension = ".py" ∧
          ∃ fc, g.pyFacts = some fc ∧ module_name f.rel_path ∈ fc.imports) →
        ¬ ∃ c ∈ find_unreferenced_files textRefs (build_python_index infos) infos,
          c.path = f.rel_path)) := by
  obtain ⟨hiff, hpin⟩ :=
    unref_mem_py textRefs (build_python_index infos) infos hnodup f hf hpy
  refine ⟨hiff, hpin, ?_⟩
  intro hmod
  have hinj : ∀ a ∈ infos, ∀ b ∈ infos, a.rel_path = b.rel_path → a = b :=
    fun a ha b hb h => List.inj_on_of_nodup_map hnodup ha hb h
  have huniqf : ∀ g ∈ infos, g.extension = ".py" →
      module_name g.rel_path = module_name f.rel_path → g = f := by
    intro g hg hgpy hm
    exact hinj g hg f hf (hmod g hg f hf hgpy hpy hm)
  refine ⟨metaIsScript_build infos f hf hpy huniqf, ?_⟩
  rintro ⟨g, hg, hgpy, fc, hgfc, hmimp⟩ hex
  have huniqg : ∀ g' ∈ infos, g'.extension = ".py" →
      module_name g'.rel_path = module_name g.rel_path → g' = g := by
    intro g' hg' h1 h2
    exact hinj g' hg' g hg (hmod g' hg' g hg h1 hgpy h2)
  have hmodsg : dget (buildModules infos []) (module_name g.rel_path) = some g :=
    dget_buildModules _ g hgpy rfl infos [] hg huniqg
  have hmemg : (module_name g.rel_path, g) ∈ buildModules infos [] := dget_mem _ _ _ hmodsg
  have hnd : (dkeys (buildModules infos [])).Nodup :=
    buildModules_keys_nodup infos [] (by simp [dkeys])
  have hentry := (buildMeta_entry _ g (buildModules infos []) [] [] hmemg hnd).1
  rw [hgfc] at hentry
  have himps : (module_name g.rel_path, fc.imports) ∈
      (buildMeta (buildModules infos []) [] []).1 := dget_mem _ _ _ hentry
  have hmodsf : dget (buildModules infos []) (module_name f.rel_path) = some f :=
    dget_buildModules _ f hpy rfl infos [] hf huniqf
  have hins : (dget (buildModules infos []) (module_name f.rel_path)).isSome = true := by
    rw [hmodsf]; rfl
  have hmem : module_name f.rel_path ∈ (build_python_index infos).referenced := by
    show module_name f.rel_path ∈
      buildReferenced (buildModules infos []) (buildMeta (buildModules infos []) [] []).1
    exact (mem_buildReferenced _ _ _).mpr
      ⟨(module_name g.rel_path, fc.imports), himps, hmimp, hins⟩
  have hcontains : (build_python_index infos).referenced.contains (module_name f.rel_path) =
      true := List.elem_iff.mpr hmem
  exact (hiff.mp hex).1 hcontains

/-- Witness for the amended C5 at the spec's scenario: `main.py` imports
`util`, `util.py` defines `helper`; no `unreferenced_python` candidate
is raised for `util.py`. -/
theorem c5_unreferenced_python_amended_witness :
    (([mainPy, utilPy].map (fun g => g.rel_path)).Nodup) ∧
      utilPy ∈ [mainPy, utilPy] ∧ utilPy.extension = ".py" ∧
      (((∃ c ∈ find_unreferenced_files [] (build_python_index [mainPy, utilPy])
            [mainPy, utilPy], c.path = utilPy.rel_path) ↔
          (¬ (build_python_index [mainPy, utilPy]).referenced.contains
              (module_name utilPy.rel_path) ∧
            ¬ metaIsScript (build_python_index [mainPy, utilPy])
              (module_name utilPy.rel_path) ∧
            ¬ isInitFile utilPy.rel_path)) ∧
        (∀ c ∈ find_unreferenced_files [] (build_python_index [mainPy, utilPy])
            [mainPy, utilPy], c.path = utilPy.rel_path →
          c = pyCand utilPy.rel_path (module_name utilPy.rel_path)) ∧
        ((∀ a ∈ [mainPy, utilPy], ∀ b ∈ [mainPy, utilPy],
            a.extension = ".py" → b.extension = ".py" →
            module_name a.rel_path = module_name b.rel_path → a.rel_path = b.rel_path) →
          metaIsScript (build_python_index [mainPy, utilPy])
              (module_name utilPy.rel_path) = fileIsScript utilPy ∧
          ((∃ g ∈ [mainPy, utilPy], g.extension = ".py" ∧
              ∃ fc, g.pyFacts = some fc ∧ module_name utilPy.rel_path ∈ fc.imports) →
            ¬ ∃ c ∈ find_unreferenced_files [] (build_python_index [mainPy, utilPy])
                [mainPy, utilPy], c.path = utilPy.rel_path))) :=
  ⟨by decide, by decide, by decide,
    c5_unreferenced_python_amended [mainPy, utilPy] [] (by decide) utilPy
      (by decide) (by decide)⟩

/-! ## Structure of the duplicate-detection groups -/

theorem fiR_refl (f : RawFile) : fiR f f := by
  right
  refine ⟨rfl, ?_⟩
  show (! charsLt f.rel_path.data f.rel_path.data) = true
  rw [charsLt_irrefl]
  rfl

theorem dget_of_mem_nodup {α : Type} (d : List (String × α)) (k : String) (v : α)
    (hnd : (dkeys d).Nodup) (hm : (k, v) ∈ d) : dget d k = some v := by
  induction d with
  | nil => simp at hm
  | cons e rest ih =>
    cases e with
    | mk k' v' =>
      simp only [dkeys, List.map_cons, List.nodup_cons] at hnd
      rcases List.mem_cons.mp hm with he | he
      · injection he with h1 h2
        subst h1; subst h2
        simp [dget]
      · have hkk : k ≠ k' := by
          intro heq
          subst heq
          exact hnd.1 (List.mem_map_of_mem (fun e => e.1) he)
        simp only [dget, if_neg hkk]
        exact ih hnd.2 he

theorem dget_dappend_self (h : List (String × List RawFile)) (k : String) (f : RawFile) :
    dget (dappend h k f) k = some ((dget h k).getD [] ++ [f]) := by
  induction h with
  | nil => simp [dappend, dget]
  | cons e rest ih =>
    cases e with
    | mk k' g =>
      by_cases hk : k = k'
      · subst hk; simp [dappend, dget]
      · simp [dappend, dget, hk, ih]

theorem dget_dappend_ne (h : List (String × List RawFile)) (k q : String) (f : RawFile)
    (hne : q ≠ k) : dget (dappend h k f) q = dget h q := by
  induction h with
  | nil => simp [dappend, dget, hne]
  | cons e rest ih =>
    cases e with
    | mk k' g =>
      by_cases hk : k = k'
      · subst hk; simp [dappend, dget, hne]
      · by_cases hq : q = k' <;> simp [dappend, dget, hk, hq, ih]

theorem dkeys_dappend_mem (h : List (String × List RawFile)) (k : String) (f : RawFile)
    (hm : k ∈ dkeys h) : dkeys (dappend h k f) = dkeys h := by
  induction h with
  | nil => simp [dkeys] at hm
  | cons e rest ih =>
    cases e with
    | mk k' g =>
      by_cases hk : k = k'
      · subst hk; simp [dappend, dkeys]
      · simp only [dkeys, List.map_cons, List.mem_cons] at hm
        rcases hm with hm | hm
        · exact absurd hm hk
        · simp only [dappend, if_neg hk, dkeys, List.map_cons, List.cons.injEq, true_and]
          exact ih hm

theorem dkeys_dappend_not_mem (h : List (String × List RawFile)) (k : String) (f : RawFile)
    (hm : k ∉ dkeys h) : dkeys (dappend h k f) = dkeys h ++ [k] := by
  induction h with
  | nil => simp [dappend, dkeys]
  | cons e rest ih =>
    cases e with
    | mk k' g =>
      simp only [dkeys, List.map_cons, List.mem_cons, not_or] at hm
      simp only [dappend, if_neg hm.1, dkeys, List.map_cons, List.cons_append,
        List.cons.injEq, true_and]
      exact ih hm.2

theorem dkeys_dappend_nodup (h : List (String × List RawFile)) (k : String) (f : RawFile)
    (hnd : (dkeys h).Nodup) : (dkeys (dappend h k f)).Nodup := by
  by_cases hk : k ∈ dkeys h
  · rw [dkeys_dappend_mem h k f hk]; exact hnd
  · rw [dkeys_dappend_not_mem h k f hk]
    simpa [List.nodup_append] using ⟨hnd, hk⟩

/-- `dappend` preserves a per-entry invariant. -/
theorem dappend_inv (P : RawFile → String → Prop) :
    ∀ (h : List (String × List RawFile)) (k : String) (f : RawFile),
      (∀ e ∈ h, ∀ g ∈ e.2, P g e.1) → P f k →
      ∀ e ∈ dappend h k f, ∀ g ∈ e.2, P g e.1 := by
  intro h
  induction h with
  | nil =>
    intro k f _ hf e he g hg
    simp only [dappend, List.mem_singleton] at he
    subst he
    simp only [List.mem_singleton] at hg
    subst hg
    exact hf
  | cons e0 rest ih =>
    intro k f hinv hf e he g hg
    cases e0 with
    | mk k' g0 =>
      by_cases hk : k = k'
      · subst hk
        rw [show dappend ((k, g0) :: rest) k f = (k, g0 ++ [f]) :: rest from by
          simp [dappend]] at he
        rcases List.mem_cons.mp he with he1 | he2
        · subst he1
          simp only [List.mem_append, List.mem_singleton] at hg
          rcases hg with hg1 | hg2
          · exact hinv (k, g0) (by simp) g hg1
          · subst hg2; exact hf
        · exact hinv e (List.mem_cons_of_mem _ he2) g hg
      · rw [show dappend ((k', g0) :: rest) k f = (k', g0) :: dappend rest k f from by
          simp [dappend, hk]] at he
        rcases List.mem_cons.mp he with he1 | he2
        · subst he1
          exact hinv (k', g0) (by simp) g hg
        · exact ih k f (fun e' he' g' hg' => hinv e' (List.mem_cons_of_mem _ he') g' hg')
            hf e he2 g hg

/-- Every file in every group of the hash pass is one of the scanned
files, is non-empty, and has the group's digest as its content. -/
theorem buildHashes_sound (univ : List RawFile) :
    ∀ (files : List RawFile) (acc r : List (String × List RawFile)),
      (∀ g ∈ files, g ∈ univ) →
      (∀ e ∈ acc, ∀ g ∈ e.2, g ∈ univ ∧ g.size ≠ 0 ∧ g.content = some e.1) →
      buildHashes files acc = .ok r →
      ∀ e ∈ r, ∀ g ∈ e.2, g ∈ univ ∧ g.size ≠ 0 ∧ g.content = some e.1 := by
  intro files
  induction files with
  | nil =>
    intro acc r _ hinv hr
    simp only [buildHashes, Except.ok.injEq] at hr
    subst hr
    exact hinv
  | cons f rest ih =>
    intro acc r hsub hinv hr
    by_cases hz : f.size = 0
    · simp only [buildHashes, if_pos hz] at hr
      exact ih acc r (fun g hg => hsub g (List.mem_cons_of_mem _ hg)) hinv hr
    · cases hcontent : f.content with
      | none =>
        simp only [buildHashes, if_neg hz, hash_file, hcontent] at hr
        exact Except.noConfusion hr
      | some cf =>
        simp only [buildHashes, if_neg hz, hash_file, hcontent] at hr
        refine ih (dappend acc cf f) r (fun g hg => hsub g (List.mem_cons_of_mem _ hg)) ?_ hr
        exact dappend_inv (fun g d => g ∈ univ ∧ g.size ≠ 0 ∧ g.content = some d) acc cf f
          hinv ⟨hsub f (by simp), hz, hcontent⟩

/-- The hash pass keeps its group keys distinct. -/
theorem buildHashes_keys_nodup :
    ∀ (files : List RawFile) (acc r : List (String × List RawFile)),
      (dkeys acc).Nodup → buildHashes files acc = .ok r → (dkeys r).Nodup := by
  intro files
  induction files with
  | nil =>
    intro acc r hnd hr
    simp only [buildHashes, Except.ok.injEq] at hr
    subst hr; exact hnd
  | cons f rest ih =>
    intro acc r hnd hr
    by_cases hz : f.size = 0
    · simp only [buildHashes, if_pos hz] at hr
      exact ih acc r hnd hr
    · cases hcontent : f.content with
      | none =>
        simp only [buildHashes, if_neg hz, hash_file, hcontent] at hr
        exact Except.noConfusion hr
      | some cf =>
        simp only [buildHashes, if_neg hz, hash_file, hcontent] at hr
        exact ih _ r (dkeys_dappend_nodup acc cf f hnd) hr

/-- What the hash pass records under one digest: the accumulated group
extended by the non-empty files with that content, in scan order. -/
theorem buildHashes_dget (c : String) :
    ∀ (files : List RawFile) (acc r : List (String × List RawFile)),
      buildHashes files acc = .ok r →
      dget r c =
        match dget acc c with
        | some g => some (g ++ hashGroup files c)
        | none => if hashGroup files c = [] then none else some (hashGroup files c) := by
  intro files
  induction files with
  | nil =>
    intro acc r hr
    simp only [buildHashes, Except.ok.injEq] at hr
    subst hr
    cases hacc : dget acc c with
    | none => simp [hashGroup, hacc]
    | some g => simp [hashGroup, hacc]
  | cons f rest ih =>
    intro acc r hr
    by_cases hz : f.size = 0
    · simp only [buildHashes, if_pos hz] at hr
      have hgroup : hashGroup (f :: rest) c = hashGroup rest c := by
        simp [hashGroup, List.filter_cons, hz]
      rw [hgroup]
      exact ih acc r hr
    · cases hcontent : f.content with
      | none =>
        simp only [buildHashes, if_neg hz, hash_file, hcontent] at hr
        exact Except.noConfusion hr
      | some cf =>
        simp only [buildHashes, if_neg hz, hash_file, hcontent] at hr
        by_cases hcc : cf = c
        · subst hcc
          have hgroup : hashGroup (f :: rest) cf = f :: hashGroup rest cf := by
            simp [hashGroup, List.filter_cons, hz, hcontent]
          rw [hgroup]
          have hres := ih (dappend acc cf f) r hr
          rw [hres, dget_dappend_self]
          cases hacc : dget acc cf with
          | none => simp
          | some g => simp
        · have hgroup : hashGroup (f :: rest) c = hashGroup rest c := by
            simp only [hashGroup, List.filter_cons]
            have hfalse : (decide (f.size ≠ 0) && f.content == some c) = false := by
              simp [hcontent, hcc]
            rw [hfalse]
            simp
          rw [hgroup]
          have hres := ih (dappend acc cf f) r hr
          rw [hres, dget_dappend_ne acc cf c f (fun heq => hcc heq.symm)]

theorem str_eq_empty_of_length (c : String) (h : c.length = 0) : c = "" := by
  cases c with
  | mk data =>
    cases data with
    | nil => rfl
    | cons a t => simp [String.length] at h

/-- Membership characterisation of the duplicate-candidate emission. -/
theorem mem_emitDups :
    ∀ (r : List (String × List RawFile)) (cand : Candidate),
      cand ∈ emitDups r ↔
        ∃ d g, (d, g) ∈ r ∧ ¬ g.length < 2 ∧
          ∃ keep others, List.insertionSort fiR g = keep :: others ∧
            ∃ f ∈ others, cand = dupCand f.rel_path keep.rel_path d := by
  intro r
  induction r with
  | nil => intro cand; simp [emitDups]
  | cons e rest ih =>
    intro cand
    cases e with
    | mk d g =>
      simp only [emitDups, List.mem_append]
      constructor
      · rintro (hc | hc)
        · by_cases h2 : g.length < 2
          · rw [if_pos h2] at hc; simp at hc
          · rw [if_neg h2] at hc
            cases hsort : List.insertionSort fiR g with
            | nil => rw [hsort] at hc; simp at hc
            | cons keep others =>
              rw [hsort] at hc
              obtain ⟨f, hf, hcand⟩ := List.mem_map.mp hc
              exact ⟨d, g, by simp, h2, keep, others, hsort, f, hf, hcand.symm⟩
        · obtain ⟨d', g', hmem, h2, keep, others, hsort, f, hf, hcand⟩ := (ih cand).mp hc
          exact ⟨d', g', List.mem_cons_of_mem _ hmem, h2, keep, others, hsort, f, hf, hcand⟩
      · rintro ⟨d', g', hmem, h2, keep, others, hsort, f, hf, hcand⟩
        rcases List.mem_cons.mp hmem with he | he
        · injection he with h1 hgg
          subst h1; subst hgg
          left
          rw [if_neg h2, hsort]
          subst hcand
          exact List.mem_map.mpr ⟨f, hf, rfl⟩
        · exact Or.inr ((ih cand).mpr ⟨d', g', he, h2, keep, others, hsort, f, hf, hcand⟩)

/-- A successful hash pass determines the generator output. -/
theorem find_duplicate_files_eq (files : List RawFile) (r : List (String × List RawFile))
    (hr : buildHashes files [] = .ok r) :
    find_duplicate_files files = .ok (emitDups r) := by
  unfold find_duplicate_files
  rw [hr]
  rfl

/-- C4 (corrected): the claim fails for empty files — two scanned files
with identical (empty) byte content yield *no* `duplicate_file`
candidate, because `_find_duplicate_files` skips files of size 0. -/
theorem c4_empty_files_counterexample :
    (c4World.filter (fun f => f.content = some "")).length = 2 ∧
      find_duplicate_files c4World = .ok [] := by decide

/-- C4 (amended): for every group of two or more scanned *non-empty*
files with identical byte content, exactly one file — the minimum under
`(len(rel_path), rel_path)`, i.e. shortest relative path with lexical
tie-break — is retained, and every other file of the group is flagged as
a `duplicate_file` candidate at confidence 0.9 naming the retained file
as `duplicate_of` and recording the content hash; the retained file is
flagged by no duplicate candidate at all. -/
theorem c4_duplicates_amended (files : List RawFile) (c : String)
    (hnodup : (files.map (fun f => f.rel_path)).Nodup)
    (hsize : ∀ f ∈ files, sizeMatches f)
    (hread : ∀ f ∈ files, f.size ≠ 0 → f.content.isSome)
    (hc : c ≠ "")
    (h2 : 2 ≤ (files.filter (fun f => f.content = some c)).length) :
    ∃ cands keep others,
      find_duplicate_files files = .ok cands ∧
      List.insertionSort fiR (files.filter (fun f => f.content = some c)) = keep :: others ∧
      keep ∈ files.filter (fun f => f.content = some c) ∧
      (∀ f ∈ files.filter (fun f => f.content = some c), fiR keep f) ∧
      (∀ f ∈ others, dupCand f.rel_path keep.rel_path c ∈ cands) ∧
      (∀ cand ∈ cands, cand.path ≠ keep.rel_path) ∧
      (∀ cand ∈ cands, dget cand.details "hash" = some (.s c) →
        ∃ f ∈ others, cand = dupCand f.rel_path keep.rel_path c) := by
  have hinj : ∀ a ∈ files, ∀ b ∈ files, a.rel_path = b.rel_path → a = b :=
    fun a ha b hb h => List.inj_on_of_nodup_map hnodup ha hb h
  have hge : files.filter (fun f => f.content = some c) = hashGroup files c := by
    refine List.filter_congr ?_
    intro f hf
    cases hcontent : f.content with
    | none => simp [hashGroup, hcontent]
    | some cf =>
      by_cases hcc : cf = c
      · subst hcc
        have hs := hsize f hf
        unfold sizeMatches at hs
        rw [hcontent] at hs
        have hsz : f.size ≠ 0 := by
          rw [hs]
          intro h0
          exact hc (str_eq_empty_of_length cf h0)
        simp [hashGroup, hcontent, hsz]
      · simp [hashGroup, hcontent, hcc]
  obtain ⟨r, hr⟩ := buildHashes_ok files [] hread
  have hfd := find_duplicate_files_eq files r hr
  have hne : hashGroup files c ≠ [] := by
    rw [← hge]
    intro h0
    rw [h0] at h2
    simp at h2
  have hdget : dget r c = some (hashGroup files c) := by
    have hd := buildHashes_dget c files [] r hr
    simp only [dget] at hd
    rw [hd, if_neg hne]
  have hmem_r : (c, hashGroup files c) ∈ r := dget_mem _ _ _ hdget
  have hkeysnd : (dkeys r).Nodup := buildHashes_keys_nodup files [] r (by simp [dkeys]) hr
  have hsound := buildHashes_sound files files [] r (fun g hg => hg) (by simp) hr
  have hperm := List.perm_insertionSort fiR (files.filter (fun f => f.content = some c))
  have hlen : 2 ≤ (List.insertionSort fiR (files.filter (fun f => f.content = some c))).length := by
    rw [hperm.length_eq]
    exact h2
  have hsorted := List.sorted_insertionSort fiR (files.filter (fun f => f.content = some c))
  have hpnodup : (List.insertionSort fiR (files.filter (fun f => f.content = some c))).Nodup := by
    have hmapnd : ((files.filter (fun f => f.content = some c)).map
        (fun f => f.rel_path)).Nodup :=
      List.Nodup.sublist (List.Sublist.map _ (List.filter_sublist files)) hnodup
    exact (hperm.nodup_iff).mpr (List.Nodup.of_map _ hmapnd)
  cases hsort : List.insertionSort fiR (files.filter (fun f => f.content = some c)) with
  | nil => rw [hsort] at hlen; simp at hlen
  | cons keep others =>
    rw [hsort] at hsorted hpnodup
    have hkeepg : keep ∈ files.filter (fun f => f.content = some c) :=
      hperm.subset (by rw [hsort]; simp)
    have hkeepfile : keep ∈ files ∧ keep.content = some c := by
      have hm := List.mem_filter.mp hkeepg
      exact ⟨hm.1, of_decide_eq_true hm.2⟩
    have h2' : ¬ (hashGroup files c).length < 2 := by
      rw [← hge]
      omega
    have hsort' : List.insertionSort fiR (hashGroup files c) = keep :: others := by
      rw [← hge]
      exact hsort
    refine ⟨emitDups r, keep, others, hfd, rfl, hkeepg, ?_, ?_, ?_, ?_⟩
    · intro f hf
      have hmem := hperm.symm.subset hf
      rw [hsort] at hmem
      rcases List.mem_cons.mp hmem with he | he
      · subst he; exact fiR_refl f
      · exact (List.pairwise_cons.mp hsorted).1 f he
    · intro f hf
      exact (mem_emitDups r _).mpr
        ⟨c, hashGroup files c, hmem_r, h2', keep, others, hsort', f, hf, rfl⟩
    · intro cand hcand hpath
      obtain ⟨d', g', hmem', h2g, keep', others', hsortg, f', hf', hcand_eq⟩ :=
        (mem_emitDups r cand).mp hcand
      have hf'g : f' ∈ g' :=
        (List.perm_insertionSort fiR g').subset
          (by rw [hsortg]; exact List.mem_cons_of_mem _ hf')
      obtain ⟨hf'file, -, hf'content⟩ := hsound (d', g') hmem' f' hf'g
      have hpath' : f'.rel_path = keep.rel_path := by
        rw [hcand_eq] at hpath
        exact hpath
      have hfk : f' = keep := hinj f' hf'file keep hkeepfile.1 hpath'
      have hd : d' = c := by
        have h1 := hf'content
        rw [hfk, hkeepfile.2] at h1
        exact (Option.some.inj h1).symm
      rw [hd] at hmem'
      have hgg : g' = hashGroup files c := by
        have h1 := dget_of_mem_nodup r c g' hkeysnd hmem'
        rw [hdget] at h1
        exact (Option.some.inj h1).symm
      rw [hgg, hsort'] at hsortg
      injection hsortg with hk ho
      rw [← ho] at hf'
      rw [hfk] at hf'
      exact (List.nodup_cons.mp hpnodup).1 hf'
    · intro cand hcand hdetail
      obtain ⟨d', g', hmem', h2g, keep', others', hsortg, f', hf', hcand_eq⟩ :=
        (mem_emitDups r cand).mp hcand
      have hd : d' = c := by
        rw [hcand_eq] at hdetail
        simp only [dupCand, dget] at hdetail
        have hds : DVal.s d' = DVal.s c := by simpa using hdetail
        injection hds
      rw [hd] at hmem' hcand_eq
      have hgg : g' = hashGroup files c := by
        have h1 := dget_of_mem_nodup r c g' hkeysnd hmem'
        rw [hdget] at h1
        exact (Option.some.inj h1).symm
      rw [hgg, hsort'] at hsortg
      injection hsortg with hk ho
      rw [← hk] at hcand_eq
      rw [← ho] at hf'
      exact ⟨f', hf', hcand_eq⟩

/-- Witness for the amended C4: in `c4GoodWorld` the `"dup"` group is
`aa.txt`/`b.txt`; `b.txt` (shorter path) is retained and `aa.txt`
flagged. -/
theorem c4_duplicates_amended_witness :
    ((c4GoodWorld.map (fun f => f.rel_path)).Nodup) ∧
      (∀ f ∈ c4GoodWorld, sizeMatches f) ∧
      (∀ f ∈ c4GoodWorld, f.size ≠ 0 → f.content.isSome) ∧
      ("dup" : String) ≠ "" ∧
      2 ≤ (c4GoodWorld.filter (fun f => f.content = some "dup")).length ∧
      (∃ cands keep others,
        find_duplicate_files c4GoodWorld = .ok cands ∧
        List.insertionSort fiR (c4GoodWorld.filter (fun f => f.content = some "dup")) =
          keep :: others ∧
        keep ∈ c4GoodWorld.filter (fun f => f.content = some "dup") ∧
        (∀ f ∈ c4GoodWorld.filter (fun f => f.content = some "dup"), fiR keep f) ∧
        (∀ f ∈ others, dupCand f.rel_path keep.rel_path "dup" ∈ cands) ∧
        (∀ cand ∈ cands, cand.path ≠ keep.rel_path) ∧
        (∀ cand ∈ cands, dget cand.details "hash" = some (.s "dup") →
          ∃ f ∈ others, cand = dupCand f.rel_path keep.rel_path "dup")) :=
  ⟨by decide, by decide, by decide, by decide, by decide,
    c4_duplicates_amended c4GoodWorld "dup" (by decide) (by decide) (by decide)
      (by decide) (by decide)⟩

/-! ## Filesystem-state lemmas and apply/undo round trip -/

theorem fsGet_erase (fs : FS) (k q : String) :
    fsGet (fsErase fs k) q = if q = k then none else fsGet fs q := by
  induction fs with
  | nil => by_cases h : q = k <;> simp [fsErase, fsGet, h]
  | cons e rest ih =>
    cases e with
    | mk k' v' =>
      by_cases hk : k' = k
      · subst hk
        have hstep : fsErase ((k', v') :: rest) k' = fsErase rest k' := by
          simp [fsErase]
        rw [hstep, ih]
        by_cases hq : q = k'
        · simp [hq]
        · simp [fsGet, hq]
      · have hstep : fsErase ((k', v') :: rest) k = (k', v') :: fsErase rest k := by
          simp [fsErase, hk]
        rw [hstep]
        by_cases hq : q = k'
        · subst hq
          have hqk : q ≠ k := hk
          simp [fsGet, hqk]
        · simp [fsGet, hq, ih]

theorem fsGet_write (fs : FS) (k q v : String) :
    fsGet (fsWrite fs k v) q = if q = k then some v else fsGet fs q := by
  unfold fsWrite
  by_cases hq : q = k
  · simp [fsGet, hq]
  · simp [fsGet, hq, fsGet_erase]

theorem str_data_inj (a b : String) (h : a.data = b.data) : a = b := by
  cases a; cases b; exact congrArg String.mk h

theorem tkey_inj (ts r1 r2 : String) (h : tkey ts r1 = tkey ts r2) : r1 = r2 := by
  have hd := congrArg String.data h
  simp only [tkey, String.data_append] at hd
  exact str_data_inj r1 r2 (List.append_cancel_left hd)

theorem tkey_ne_undo (ts r : String) : tkey ts r ≠ "undo.sh" := by
  intro h
  have hd := congrArg String.data h
  simp only [tkey, trashName, String.data_append] at hd
  simp at hd

theorem tkey_ne_closure (ts r : String) : tkey ts r ≠ "CLOSURE.md" := by
  intro h
  have hd := congrArg String.data h
  simp only [tkey, trashName, String.data_append] at hd
  simp at hd

/-- One apply-loop step preserves the invariant, for a candidate whose
path is clear of the transaction's artifacts. -/
theorem applyStep_inv (ts : String) (fs0 : FS) (st : ApplySt) (c : Candidate)
    (hgood : c.kind = "file" → c.action = "delete" → offTrash ts c.path)
    (hinv : ApplyInv ts fs0 st) : ApplyInv ts fs0 (applyStep ts st c) := by
  obtain ⟨hnd, hoff, hmoved, hrest⟩ := hinv
  by_cases hk : c.kind = "file" ∧ c.action = "delete"
  · by_cases hmem : c.path ∈ st.undoRels
    · have hstep : applyStep ts st c = st := by simp [applyStep, hk, hmem]
      rw [hstep]
      exact ⟨hnd, hoff, hmoved, hrest⟩
    · cases hget : fsGet st.fs c.path with
      | none =>
        have hstep : applyStep ts st c = st := by simp [applyStep, hk, hmem, hget]
        rw [hstep]
        exact ⟨hnd, hoff, hmoved, hrest⟩
      | some v =>
        have hcg : offTrash ts c.path := hgood hk.1 hk.2
        have horig : fsGet fs0 c.path = some v := by
          rw [← hrest c.path hcg hmem]
          exact hget
        have hstep : applyStep ts st c =
            ⟨fsWrite (fsErase st.fs c.path) (tkey ts c.path) v,
              st.undoRels ++ [c.path],
              st.rows ++ [⟨c.path, tkey ts c.path, c.reason, c.confidence⟩]⟩ := by
          simp [applyStep, hk, hmem, hget]
        rw [hstep]
        refine ⟨?_, ?_, ?_, ?_⟩
        · simpa [List.nodup_append] using ⟨hnd, by simpa [List.disjoint_left] using hmem⟩
        · intro rel hrel
          rcases List.mem_append.mp hrel with h | h
          · exact hoff rel h
          · simp only [List.mem_singleton] at h
            subst h
            exact hcg
        · intro rel hrel
          rcases List.mem_append.mp hrel with h | h
          · have hne : rel ≠ c.path := fun heq => hmem (heq ▸ h)
            have h1 : tkey ts rel ≠ tkey ts c.path := fun heq => hne (tkey_inj ts rel c.path heq)
            have h2 : tkey ts rel ≠ c.path := fun heq => (hcg.2.2 rel) heq.symm
            show fsGet (fsWrite (fsErase st.fs c.path) (tkey ts c.path) v) (tkey ts rel) =
              fsGet fs0 rel ∧ (fsGet fs0 rel).isSome
            rw [fsGet_write, if_neg h1, fsGet_erase, if_neg h2]
            exact hmoved rel h
          · simp only [List.mem_singleton] at h
            subst h
            show fsGet (fsWrite (fsErase st.fs c.path) (tkey ts c.path) v) (tkey ts c.path) =
              fsGet fs0 c.path ∧ (fsGet fs0 c.path).isSome
            rw [fsGet_write, if_pos rfl]
            exact ⟨horig.symm, by rw [horig]; rfl⟩
        · intro p hp hpnot
          have hnp : p ∉ st.undoRels := fun hmem' => hpnot (List.mem_append.mpr (Or.inl hmem'))
          have hne : p ≠ c.path := fun heq => hpnot (List.mem_append.mpr (Or.inr (by simp [heq])))
          have h1 : p ≠ tkey ts c.path := hp.2.2 c.path
          show fsGet (fsWrite (fsErase st.fs c.path) (tkey ts c.path) v) p = fsGet fs0 p
          rw [fsGet_write, if_neg h1, fsGet_erase, if_neg hne]
          exact hrest p hp hnp
  · have hstep : applyStep ts st c = st := by simp [applyStep, hk]
    rw [hstep]
    exact ⟨hnd, hoff, hmoved, hrest⟩

/-- The apply loop preserves the invariant. -/
theorem applyLoop_inv (ts : String) (fs0 : FS) :
    ∀ (cands : List Candidate) (st : ApplySt),
      (∀ c ∈ cands, c.kind = "file" → c.action = "delete" → offTrash ts c.path) →
      ApplyInv ts fs0 st → ApplyInv ts fs0 (applyLoop ts st cands) := by
  intro cands
  induction cands with
  | nil => intro st _ hinv; exact hinv
  | cons c rest ih =>
    intro st hgood hinv
    simp only [applyLoop, List.foldl_cons]
    exact ih (applyStep ts st c) (fun c' hc' => hgood c' (List.mem_cons_of_mem _ hc'))
      (applyStep_inv ts fs0 st c (hgood c (by simp)) hinv)

/-- Executing the undo moves in order restores every moved file and
clears its trash copy. -/
theorem runUndo_loop (ts : String) (fs0 : FS) :
    ∀ (todo done : List String) (g : FS),
      (done ++ todo).Nodup →
      (∀ rel ∈ done ++ todo, offTrash ts rel) →
      (∀ rel ∈ todo, fsGet g (tkey ts rel) = fsGet fs0 rel ∧ (fsGet fs0 rel).isSome) →
      (∀ rel ∈ done, fsGet g rel = fsGet fs0 rel ∧ fsGet g (tkey ts rel) = none) →
      ∃ g', List.foldl (undoStep ts) (some g) todo = some g' ∧
        ∀ rel ∈ done ++ todo, fsGet g' rel = fsGet fs0 rel ∧ fsGet g' (tkey ts rel) = none := by
  intro todo
  induction todo with
  | nil =>
    intro done g hnd hoff htodo hdone
    refine ⟨g, rfl, ?_⟩
    intro rel hrel
    rw [List.append_nil] at hrel
    exact hdone rel hrel
  | cons rel todo' ih =>
    intro done g hnd hoff htodo hdone
    obtain ⟨hmv, hsome⟩ := htodo rel (by simp)
    cases hval : fsGet fs0 rel with
    | none => rw [hval] at hsome; simp at hsome
    | some v =>
      rw [hval] at hmv
      have hstep : undoStep ts (some g) rel =
          some (fsWrite (fsErase g (tkey ts rel)) rel v) := by
        simp [undoStep, hmv]
      have hrel_off : offTrash ts rel := hoff rel (by simp)
      have hnd' : ((done ++ [rel]) ++ todo').Nodup := by
        rw [← List.append_cons]
        exact hnd
      have hdisj : ∀ r ∈ done, r ≠ rel := by
        intro r hr heq
        exact (List.disjoint_of_nodup_append hnd) hr (by simp [heq])
      have hrel_todo : rel ∉ todo' := by
        have hnd2 := List.Nodup.of_append_right hnd
        exact (List.nodup_cons.mp hnd2).1
      set g1 := fsWrite (fsErase g (tkey ts rel)) rel v with hg1
      have htodo' : ∀ r ∈ todo', fsGet g1 (tkey ts r) = fsGet fs0 r ∧ (fsGet fs0 r).isSome := by
        intro r hr
        have h1 : tkey ts r ≠ rel := fun heq => (hrel_off.2.2 r) heq.symm
        have h2 : tkey ts r ≠ tkey ts rel := fun heq =>
          hrel_todo ((tkey_inj ts r rel heq) ▸ hr)
        rw [hg1, fsGet_write, if_neg h1, fsGet_erase, if_neg h2]
        exact htodo r (by simp [hr])
      have hdone' : ∀ r ∈ done ++ [rel], fsGet g1 r = fsGet fs0 r ∧
          fsGet g1 (tkey ts r) = none := by
        intro r hr
        rcases List.mem_append.mp hr with h | h
        · have hroff : offTrash ts r := hoff r (by simp [h])
          have hne : r ≠ rel := hdisj r h
          have h1 : r ≠ tkey ts rel := hroff.2.2 rel
          have h2 : tkey ts r ≠ rel := fun heq => (hrel_off.2.2 r) heq.symm
          have h3 : tkey ts r ≠ tkey ts rel := fun heq => hne (tkey_inj ts r rel heq)
          constructor
          · rw [hg1, fsGet_write, if_neg hne, fsGet_erase, if_neg h1]
            exact (hdone r h).1
          · rw [hg1, fsGet_write, if_neg h2, fsGet_erase, if_neg h3]
            exact (hdone r h).2
        · simp only [List.mem_singleton] at h
          subst h
          constructor
          · rw [hg1, fsGet_write, if_pos rfl, hval]
          · have h2 : tkey ts r ≠ r := fun heq => (hrel_off.2.2 r) heq.symm
            rw [hg1, fsGet_write, if_neg h2, fsGet_erase, if_pos rfl]
      have hoff' : ∀ r ∈ (done ++ [rel]) ++ todo', offTrash ts r := by
        intro r hr
        rw [← List.append_cons] at hr
        exact hoff r hr
      obtain ⟨g', hfold, hres⟩ := ih (done ++ [rel]) g1 hnd' hoff' htodo' hdone'
      refine ⟨g', ?_, ?_⟩
      · simp only [List.foldl_cons, hstep]
        exact hfold
      · intro r hr
        rw [List.append_cons] at hr
        exact hres r hr

/-- C1 (corrected): the round trip fails when a plan flags a file named
`undo.sh` — `apply_plan` moves it into the trash and then overwrites the
trash copy with the generated undo script, so executing the undo script
"restores" the script text, not the original bytes. -/
theorem c1_undo_collision_counterexample :
    (apply_plan "T" c1CexPlan c1CexFs 40).2.1 = ["undo.sh"] ∧
      fsGet c1CexFs "undo.sh" = some "original payload" ∧
      (runUndo "T" (apply_plan "T" c1CexPlan c1CexFs 40).2.1
        (apply_plan "T" c1CexPlan c1CexFs 40).1).isSome = true ∧
      (runUndo "T" (apply_plan "T" c1CexPlan c1CexFs 40).2.1
          (apply_plan "T" c1CexPlan c1CexFs 40).1).map (fun g => fsGet g "undo.sh") ≠
        some (some "original payload") := by decide

/-- C1 (amended): for every plan none of whose file-deletion candidate
paths is the undo script's name `undo.sh`, the trash directory itself, or
a path under the trash directory, running the apply transaction and then
executing the generated undo script succeeds and restores every moved
file to its original relative path with its original content, and leaves
no moved file's entry under the trash directory (the trash directory's
own artifacts may remain). -/
theorem c1_apply_undo_amended (fs : FS) (plan : Plan) (ts : String) (τ : Nat)
    (hgood : ∀ c ∈ plan.candidates, c.kind = "file" → c.action = "delete" →
      offTrash ts c.path) :
    ∃ ffs, runUndo ts (apply_plan ts plan fs τ).2.1 (apply_plan ts plan fs τ).1 = some ffs ∧
      ∀ rel ∈ (apply_plan ts plan fs τ).2.1,
        fsGet ffs rel = fsGet fs rel ∧ (fsGet fs rel).isSome = true ∧
          fsGet ffs (tkey ts rel) = none := by
  have hinv0 : ApplyInv ts fs ⟨fs, [], []⟩ := by
    refine ⟨List.nodup_nil, ?_, ?_, ?_⟩
    · intro rel h; simp at h
    · intro rel h; simp at h
    · intro p _ _; rfl
  obtain ⟨hnd, hoff, hmoved, hrest⟩ := applyLoop_inv ts fs plan.candidates ⟨fs, [], []⟩
    hgood hinv0
  set st := applyLoop ts ⟨fs, [], []⟩ plan.candidates with hst
  have hp1 : (apply_plan ts plan fs τ).1 =
      fsWrite (fsWrite (fsWrite st.fs "undo.sh" (renderUndo ts st.undoRels))
        (tkey ts "undo.sh") (renderUndo ts st.undoRels)) "CLOSURE.md" "closure report" := rfl
  have hp2 : (apply_plan ts plan fs τ).2.1 = st.undoRels := rfl
  have htodo : ∀ rel ∈ st.undoRels,
      fsGet (apply_plan ts plan fs τ).1 (tkey ts rel) = fsGet fs rel ∧
        (fsGet fs rel).isSome := by
    intro rel hrel
    have hro := hoff rel hrel
    have h1 : tkey ts rel ≠ "CLOSURE.md" := tkey_ne_closure ts rel
    have h2 : tkey ts rel ≠ tkey ts "undo.sh" := fun heq => hro.1 (tkey_inj ts rel "undo.sh" heq)
    have h3 : tkey ts rel ≠ "undo.sh" := tkey_ne_undo ts rel
    rw [hp1, fsGet_write, if_neg h1, fsGet_write, if_neg h2, fsGet_write, if_neg h3]
    exact hmoved rel hrel
  obtain ⟨ffs, hfold, hres⟩ := runUndo_loop ts fs st.undoRels [] (apply_plan ts plan fs τ).1
    (by simpa using hnd) (by simpa using hoff) htodo (by intro r h; simp at h)
  refine ⟨ffs, ?_, ?_⟩
  · rw [hp2]
    exact hfold
  · intro rel hrel
    rw [hp2] at hrel
    have hr := hres rel (by simpa using hrel)
    exact ⟨hr.1, (hmoved rel hrel).2, hr.2⟩

/-- Witness for the amended C1: one benign moved file `a.txt` round-trips
with its content intact and its trash copy gone. -/
theorem c1_apply_undo_amended_witness :
    (∀ c ∈ c1GoodPlan.candidates, c.kind = "file" → c.action = "delete" →
      offTrash "T" c.path) ∧
      ∃ ffs, runUndo "T" (apply_plan "T" c1GoodPlan c1GoodFs 40).2.1
          (apply_plan "T" c1GoodPlan c1GoodFs 40).1 = some ffs ∧
        ∀ rel ∈ (apply_plan "T" c1GoodPlan c1GoodFs 40).2.1,
          fsGet ffs rel = fsGet c1GoodFs rel ∧ (fsGet c1GoodFs rel).isSome = true ∧
            fsGet ffs (tkey "T" rel) = none := by
  have hgood : ∀ c ∈ c1GoodPlan.candidates, c.kind = "file" → c.action = "delete" →
      offTrash "T" c.path := by
    intro c hc _ _
    simp only [c1GoodPlan, List.mem_singleton] at hc
    subst hc
    refine ⟨by decide, by decide, ?_⟩
    intro s h
    have hl := congrArg String.length h
    simp only [tkey, trashName, String.length_append] at hl
    rw [show ("a.txt" : String).length = 5 from rfl,
      show ("._trash_" : String).length = 8 from rfl,
      show ("T" : String).length = 1 from rfl,
      show ("/" : String).length = 1 from rfl] at hl
    omega
  exact ⟨hgood, c1_apply_undo_amended c1GoodFs c1GoodPlan "T" 40 hgood⟩
